import Mathlib

/-! # QDomNodeModel: a node model over a DOM tree

A shallow embedding of `src/QDomNodeModel.cpp`.  The adapter reads a tree owned by an
external provider (the Qt DOM classes) and answers the questions of a query engine:
document order, namespace bindings, qualified names, string values, axis steps.

The file has three layers:

* the provider: the tree, node handles and the accessors the adapter calls on them
  (`parentNode`, `firstChild`, `nextSibling`, `attributes`, `nodeName`, ...);
* the adapter: one definition per function of `QDomNodeModel.cpp`, loop for loop;
* the properties proved about the adapter.
-/

/-! ## Provider: strings, node records, trees -/

/-- A `QString` is a sequence of code units.  Every constant the adapter uses
(`xmlns`, `xmlns:`, `:`) is ASCII, so positions counted in code units and positions counted
in list elements agree. -/
abbrev QString := List Char

/-- What the provider records for one node: the answers to the six kind predicates the adapter
asks, the name parts, the value (the data of a text, comment or processing instruction node,
the value of an attribute) and the source position. -/
structure NodeData where
  isAttr : Bool
  isText : Bool
  isComment : Bool
  isDocument : Bool
  isElement : Bool
  isProcessingInstruction : Bool
  nodeName : QString
  pfx : QString
  namespaceURI : QString
  localName : QString
  nodeValue : QString
  lineNumber : Int
  columnNumber : Int
deriving DecidableEq, Repr

/-- A node of the provider's tree with its attribute list and its child list, both in the order
in which the provider enumerates them. -/
inductive DomTree where
  | mk (data : NodeData) (attrs : List NodeData) (children : List DomTree)

namespace DomTree

/-- The record of the node at the top of a tree. -/
def data : DomTree → NodeData
  | .mk d _ _ => d

/-- The attribute records of the node at the top of a tree. -/
def attrs : DomTree → List NodeData
  | .mk _ a _ => a

/-- The child list of the node at the top of a tree. -/
def children : DomTree → List DomTree
  | .mk _ _ cs => cs

/-- Follow child indices downwards, outermost index first. -/
def descend : DomTree → List Nat → Option DomTree
  | t, [] => some t
  | .mk _ _ cs, i :: is =>
    match cs[i]? with
    | some c => c.descend is
    | none => none

end DomTree

/-- The address of a node: the tree of the store it lives in, the child indices leading to it
(innermost index first, so that the parent is the tail) and, for an attribute, its position in
the attribute list of the element at that place.  It plays the part of the `QDomNodePrivate *`
of the source; two handles denote the same node exactly when their addresses are equal. -/
structure Loc where
  tree : Nat
  rpath : List Nat
  attr : Option Nat
deriving DecidableEq, Repr

/-- A `QDomNode` is a handle around an implementation pointer; the null node has none. -/
structure QDomNode where
  impl : Option Loc
deriving DecidableEq, Repr

/-- The store of the provider: the document tree and any tree that is not attached to it. -/
abbrev DomStore := List DomTree

/-- The subtree at an address of element kind (the attribute part is ignored). -/
def DomStore.subtree (h : DomStore) (l : Loc) : Option DomTree :=
  match h[l.tree]? with
  | some t => t.descend l.rpath.reverse
  | none => none

namespace QDomNode

/-- The null node. -/
def null : QDomNode := ⟨none⟩

/-- Provider `QDomNode::isNull`. -/
def isNull (n : QDomNode) : Bool := n.impl.isNone

/-- The record the provider holds for a handle, if the handle points into the store. -/
def record (h : DomStore) (n : QDomNode) : Option NodeData :=
  match n.impl with
  | none => none
  | some l =>
    match h.subtree l with
    | none => none
    | some t =>
      match l.attr with
      | none => some t.data
      | some i => t.attrs[i]?

/-- Provider `QDomNode::isAttr`. -/
def isAttr (h : DomStore) (n : QDomNode) : Bool :=
  match n.record h with
  | some d => d.isAttr
  | none => false

/-- Provider `QDomNode::isText`. -/
def isText (h : DomStore) (n : QDomNode) : Bool :=
  match n.record h with
  | some d => d.isText
  | none => false

/-- Provider `QDomNode::isComment`. -/
def isComment (h : DomStore) (n : QDomNode) : Bool :=
  match n.record h with
  | some d => d.isComment
  | none => false

/-- Provider `QDomNode::isDocument`. -/
def isDocument (h : DomStore) (n : QDomNode) : Bool :=
  match n.record h with
  | some d => d.isDocument
  | none => false

/-- Provider `QDomNode::isElement`. -/
def isElement (h : DomStore) (n : QDomNode) : Bool :=
  match n.record h with
  | some d => d.isElement
  | none => false

/-- Provider `QDomNode::isProcessingInstruction`. -/
def isProcessingInstruction (h : DomStore) (n : QDomNode) : Bool :=
  match n.record h with
  | some d => d.isProcessingInstruction
  | none => false

/-- Provider `QDomNode::nodeName`; the null string for a null node. -/
def nodeName (h : DomStore) (n : QDomNode) : QString :=
  match n.record h with
  | some d => d.nodeName
  | none => []

/-- Provider `QDomNode::prefix`. -/
def pfx (h : DomStore) (n : QDomNode) : QString :=
  match n.record h with
  | some d => d.pfx
  | none => []

/-- Provider `QDomNode::namespaceURI`. -/
def namespaceURI (h : DomStore) (n : QDomNode) : QString :=
  match n.record h with
  | some d => d.namespaceURI
  | none => []

/-- Provider `QDomNode::localName`. -/
def localName (h : DomStore) (n : QDomNode) : QString :=
  match n.record h with
  | some d => d.localName
  | none => []

/-- Provider `QDomNode::nodeValue`, which is also what `QDomCharacterData::data`,
`QDomProcessingInstruction::data` and `QDomAttr::value` return. -/
def nodeValue (h : DomStore) (n : QDomNode) : QString :=
  match n.record h with
  | some d => d.nodeValue
  | none => []

/-- Provider `QDomNode::lineNumber`; `-1` when nothing is recorded. -/
def lineNumber (h : DomStore) (n : QDomNode) : Int :=
  match n.record h with
  | some d => d.lineNumber
  | none => -1

/-- Provider `QDomNode::columnNumber`; `-1` when nothing is recorded. -/
def columnNumber (h : DomStore) (n : QDomNode) : Int :=
  match n.record h with
  | some d => d.columnNumber
  | none => -1

/-- Provider `QDomNode::parentNode`: the null node for a root and for the null node; the
parent of an attribute is the element that owns it, as in the Qt implementation. -/
def parentNode (n : QDomNode) : QDomNode :=
  match n.impl with
  | none => null
  | some ⟨t, rp, some _⟩ => ⟨some ⟨t, rp, none⟩⟩
  | some ⟨_, [], none⟩ => null
  | some ⟨t, _ :: rp, none⟩ => ⟨some ⟨t, rp, none⟩⟩

/-- Number of children of a node (`childNodes().size()`); attributes are not children. -/
def childCount (h : DomStore) (n : QDomNode) : Nat :=
  match n.impl with
  | some ⟨t, rp, none⟩ =>
    match h.subtree ⟨t, rp, none⟩ with
    | some e => e.children.length
    | none => 0
  | _ => 0

/-- Provider `QDomNode::firstChild`. -/
def firstChild (h : DomStore) (n : QDomNode) : QDomNode :=
  match n.impl with
  | some ⟨t, rp, none⟩ => if 0 < childCount h n then ⟨some ⟨t, 0 :: rp, none⟩⟩ else null
  | _ => null

/-- Provider `QDomNode::nextSibling`. -/
def nextSibling (h : DomStore) (n : QDomNode) : QDomNode :=
  match n.impl with
  | some ⟨t, i :: rp, none⟩ =>
    if i + 1 < childCount h ⟨some ⟨t, rp, none⟩⟩ then ⟨some ⟨t, (i + 1) :: rp, none⟩⟩ else null
  | _ => null

/-- Provider `QDomNode::previousSibling`. -/
def previousSibling (h : DomStore) (n : QDomNode) : QDomNode :=
  match n.impl with
  | some ⟨t, (i + 1) :: rp, none⟩ =>
    if i + 1 < childCount h ⟨some ⟨t, rp, none⟩⟩ then ⟨some ⟨t, i :: rp, none⟩⟩ else null
  | _ => null

/-- Provider `QDomNode::childNodes`: the children in child order. -/
def childNodes (h : DomStore) (n : QDomNode) : List QDomNode :=
  match n.impl with
  | some ⟨t, rp, none⟩ =>
    (List.range (childCount h n)).map (fun i => (⟨some ⟨t, i :: rp, none⟩⟩ : QDomNode))
  | _ => []

/-- Provider `QDomNode::attributes`: the attribute nodes of an element in the order of
`QDomNamedNodeMap::item`; empty for every node that is not an element. -/
def attributes (h : DomStore) (n : QDomNode) : List QDomNode :=
  match n.impl with
  | some ⟨t, rp, none⟩ =>
    match h.subtree ⟨t, rp, none⟩ with
    | some e =>
      if e.data.isElement then
        (List.range e.attrs.length).map (fun i => (⟨some ⟨t, rp, some i⟩⟩ : QDomNode))
      else []
    | none => []
  | _ => []

/-- Number of nodes on the way from a node up to its root, the node included; it bounds the
number of rounds of every loop that climbs with `parentNode`. -/
def depth (n : QDomNode) : Nat :=
  match n.impl with
  | none => 0
  | some ⟨_, rp, none⟩ => rp.length + 1
  | some ⟨_, rp, some _⟩ => rp.length + 2

end QDomNode

/-! ### Provider: text of an element -/

mutual
/-- Provider `QDomElement::text`: the values of the text children, and the text of the
element children, in child order. -/
def DomTree.text : DomTree → QString
  | .mk _ _ cs => DomTree.textOfChildren cs
/-- The loop of `QDomElement::text` over a child list. -/
def DomTree.textOfChildren : List DomTree → QString
  | [] => []
  | .mk d a cs :: rest =>
    (if d.isText then d.nodeValue
     else if d.isElement then (DomTree.mk d a cs).text
     else []) ++ DomTree.textOfChildren rest
end

/-- Provider `QDomNode::toElement().text()`: the text of the element behind a handle; the
null string when the handle is not an element. -/
def QDomNode.elementText (h : DomStore) (n : QDomNode) : QString :=
  match n.impl with
  | some ⟨t, rp, none⟩ =>
    match h.subtree ⟨t, rp, none⟩ with
    | some e => if e.data.isElement then e.text else []
    | none => []
  | _ => []

/-- The loop of `QDomDocument::documentElement`: the first child that is an element. -/
def QDomNode.firstElementFrom (h : DomStore) : Nat → QDomNode → QDomNode
  | 0, _ => QDomNode.null
  | fuel + 1, c =>
    if c.isNull then QDomNode.null
    else if c.isElement h then c
    else QDomNode.firstElementFrom h fuel (c.nextSibling h)

/-- Provider `QDomNode::toDocument().documentElement()`. -/
def QDomNode.documentElement (h : DomStore) (n : QDomNode) : QDomNode :=
  if n.isDocument h then QDomNode.firstElementFrom h (n.childCount h) (n.firstChild h)
  else QDomNode.null

/-! ## Engine side: indices, names, orders, kinds -/

/-- The index handed to the query engine: the stored pointer, the additional data and
whether a model stands behind it (a default-constructed index has none). -/
structure QXmlNodeModelIndex where
  data : Option Loc
  additionalData : Nat
  hasModel : Bool
deriving DecidableEq, Repr

/-- The default-constructed index `QXmlNodeModelIndex()`. -/
def QXmlNodeModelIndex.empty : QXmlNodeModelIndex := ⟨none, 0, false⟩

/-- A qualified name as built by `QXmlName(pool, localName, namespaceURI, prefix)`; the name
pool interns the three strings and gives them back unchanged. -/
structure QXmlName where
  localName : QString
  namespaceUri : QString
  pfx : QString
deriving DecidableEq, Repr

/-- The answers of `compareOrder` (`QXmlNodeModelIndex::DocumentOrder`). -/
inductive DocumentOrder where
  | Precedes
  | Is
  | Follows
deriving DecidableEq, Repr

/-- The adapter: the store behind `m_Doc` and the flag `m_ReadOnly`. -/
structure QDomNodeModel where
  dom : DomStore
  m_ReadOnly : Bool

namespace QDomNodeModel

/-- Engine `createIndex(pointer, additionalData)`. -/
def createIndex (_m : QDomNodeModel) (p : Option Loc) (additionalData : Nat) :
    QXmlNodeModelIndex :=
  ⟨p, additionalData, true⟩

/-- Source `QDomNodeModel::fromDomNode`. -/
def fromDomNode (m : QDomNodeModel) (n : QDomNode) : QXmlNodeModelIndex :=
  if n.isNull then QXmlNodeModelIndex.empty
  else m.createIndex n.impl 0

/-- Source `QDomNodeModel::toDomNode`. -/
def toDomNode (_m : QDomNodeModel) (ni : QXmlNodeModelIndex) : QDomNode :=
  ⟨ni.data⟩

/-! ### Ancestor path and document order -/

/-- The loop of `QDomNodeModel::path`: push the current node, climb, until the null node. -/
def pathLoop : Nat → QDomNode → List QDomNode → List QDomNode
  | 0, _, result => result
  | fuel + 1, current, result =>
    if current.isNull then result
    else pathLoop fuel current.parentNode (result ++ [current])

/-- Source `QDomNodeModel::path`: the nodes from the root down to `n`. -/
def path (_m : QDomNodeModel) (n : QDomNode) : List QDomNode :=
  (pathLoop n.depth n []).reverse

/-- The inner loop of `compareOrder`: walk the children of the last common node from the first
one on; the first of the two diverging nodes that is met decides. -/
def siblingScan (h : DomStore) (a b : QDomNode) : Nat → QDomNode → DocumentOrder
  | 0, _ => DocumentOrder.Is
  | fuel + 1, c =>
    if c.isNull then DocumentOrder.Is
    else if c = a then DocumentOrder.Precedes
    else if c = b then DocumentOrder.Follows
    else siblingScan h a b fuel (c.nextSibling h)

/-- The outer loop of `compareOrder` over the positions `i = 1 .. s - 1` of the two paths.
An access `at(i)` outside a vector has no defined result and yields `none`. -/
def compareOrderLoop (h : DomStore) (p1 p2 : List QDomNode) (s : Nat) :
    Nat → Nat → Option DocumentOrder
  | 0, _ => some DocumentOrder.Is
  | fuel + 1, i =>
    if i < s then
      match p1[i]?, p2[i]?, p1[i - 1]? with
      | some a, some b, some above =>
        if a ≠ b then some (siblingScan h a b (above.childCount h) (above.firstChild h))
        else compareOrderLoop h p1 p2 s fuel (i + 1)
      | _, _, _ => none
    else some DocumentOrder.Is

/-- Source `QDomNodeModel::compareOrder`. -/
def compareOrder (m : QDomNodeModel) (ni1 ni2 : QXmlNodeModelIndex) : Option DocumentOrder :=
  let n1 := m.toDomNode ni1
  let n2 := m.toDomNode ni2
  if n1 = n2 then some DocumentOrder.Is
  else if m.m_ReadOnly then
    let i1 := n1.lineNumber m.dom
    let i2 := n2.lineNumber m.dom
    if i1 < i2 then some DocumentOrder.Precedes
    else if i1 > i2 then some DocumentOrder.Follows
    else
      let i1 := n1.columnNumber m.dom
      let i2 := n2.columnNumber m.dom
      if i1 < i2 then some DocumentOrder.Precedes
      else if i1 > i2 then some DocumentOrder.Follows
      else some DocumentOrder.Is
  else
    let p1 := m.path n1
    let p2 := m.path n2
    match p1[0]?, p2[0]? with
    | some r1, some r2 =>
      if r1 ≠ r2 then some DocumentOrder.Is
      else
        let s := if p1.length < p2.length then p1.length else p2.length
        compareOrderLoop m.dom p1 p2 s (s - 1) 1
    | _, _ => none

/-! ### Node kinds -/

/-- The values of `QXmlNodeModelIndex::NodeKind`. -/
abbrev NodeKind := Nat

/-- Value of `QXmlNodeModelIndex::Attribute`. -/
def NodeKind.Attribute : NodeKind := 1
/-- Value of `QXmlNodeModelIndex::Comment`. -/
def NodeKind.Comment : NodeKind := 2
/-- Value of `QXmlNodeModelIndex::Document`. -/
def NodeKind.Document : NodeKind := 4
/-- Value of `QXmlNodeModelIndex::Element`. -/
def NodeKind.Element : NodeKind := 8
/-- Value of `QXmlNodeModelIndex::ProcessingInstruction`. -/
def NodeKind.ProcessingInstruction : NodeKind := 32
/-- Value of `QXmlNodeModelIndex::Text`. -/
def NodeKind.Text : NodeKind := 64

/-- Source `QDomNodeModel::kind`. -/
def kind (m : QDomNodeModel) (ni : QXmlNodeModelIndex) : NodeKind :=
  let n := m.toDomNode ni
  if n.isAttr m.dom then NodeKind.Attribute
  else if n.isText m.dom then NodeKind.Text
  else if n.isComment m.dom then NodeKind.Comment
  else if n.isDocument m.dom then NodeKind.Document
  else if n.isElement m.dom then NodeKind.Element
  else if n.isProcessingInstruction m.dom then NodeKind.ProcessingInstruction
  else 0

/-! ### Namespace bindings -/

/-- The literal `xmlns`. -/
def xmlnsLit : QString := ['x', 'm', 'l', 'n', 's']

/-- The literal `xmlns:`. -/
def xmlnsColonLit : QString := ['x', 'm', 'l', 'n', 's', ':']

/-- The literal `xml`. -/
def xmlLit : QString := ['x', 'm', 'l']

/-- The literal `http://www.w3.org/XML/1998/namespace`. -/
def xmlNamespaceUri : QString := "http://www.w3.org/XML/1998/namespace".toList

/-- The string `p` that `namespaceBindings` derives from an attribute name: empty for `xmlns`,
the rest of the name after `xmlns:`, and the null string (`none`) for any other name. -/
def declaredPrefix (a : QString) : Option QString :=
  if a = xmlnsLit then some []
  else if xmlnsColonLit.isPrefixOf a then some (a.drop 6)
  else none

/-- The search loop over `result`: the value of `j` when the loop stops, which is the position
of the first binding with the given prefix, or the size of `result` when there is none. -/
def findPrefix (p : QString) : List QXmlName → Nat
  | [] => 0
  | b :: bs => if b.pfx = p then 0 else findPrefix p bs + 1

/-- One round of the attribute loop of `namespaceBindings`, on the pair
`(result, xmlNamespaceDefined)`. -/
def bindingStep (h : DomStore) (st : List QXmlName × Bool) (a : QDomNode) :
    List QXmlName × Bool :=
  match declaredPrefix (a.nodeName h) with
  | none => st
  | some p =>
    if findPrefix p st.1 ≥ st.1.length then
      (st.1 ++ [⟨xmlnsLit, a.nodeValue h, p⟩], if p = xmlLit then true else st.2)
    else st

/-- The ascent of `namespaceBindings`: run the attribute loop on the node, then climb. -/
def namespaceBindingsLoop (h : DomStore) :
    Nat → QDomNode → List QXmlName × Bool → List QXmlName × Bool
  | 0, _, st => st
  | fuel + 1, n, st =>
    if n.isNull then st
    else namespaceBindingsLoop h fuel n.parentNode ((n.attributes h).foldl (bindingStep h) st)

/-- The binding that is appended when no declaration of the prefix `xml` was met. -/
def xmlBinding : QXmlName := ⟨xmlnsLit, xmlNamespaceUri, xmlLit⟩

/-- Source `QDomNodeModel::namespaceBindings`. -/
def namespaceBindings (m : QDomNodeModel) (ni : QXmlNodeModelIndex) : List QXmlName :=
  let n := m.toDomNode ni
  let st := namespaceBindingsLoop m.dom n.depth n ([], false)
  if !st.2 then st.1 ++ [xmlBinding] else st.1

/-! ### Names -/

/-- Provider `QString::indexOf` for one character: the first position, or `-1`. -/
def indexOf (c : Char) : QString → Int
  | [] => -1
  | x :: xs =>
    if x = c then 0
    else if indexOf c xs < 0 then -1 else indexOf c xs + 1

/-- The lookup loop of `name` over the bindings in scope: the name built from the first
binding whose prefix is `p`, if there is one. -/
def nameLoop (t p : QString) : List QXmlName → Option QXmlName
  | [] => none
  | b :: bs => if b.pfx = p then some ⟨t, b.namespaceUri, p⟩ else nameLoop t p bs

/-- The prefix and the local part that `name` derives from the explicit prefix `p` and the raw
name `t`: when `p` is empty the raw name is split at its first colon. -/
def splitName (p t : QString) : QString × QString :=
  if p.isEmpty then
    let c := indexOf ':' t
    if c < 0 then ([], t)
    else (t.take c.toNat, t.drop (c.toNat + 1))
  else (p, t)

/-- Source `QDomNodeModel::name`. -/
def name (m : QDomNodeModel) (ni : QXmlNodeModelIndex) : QXmlName :=
  let n := m.toDomNode ni
  if n.isAttr m.dom || n.isElement m.dom then
    if !(n.namespaceURI m.dom).isEmpty then
      ⟨n.localName m.dom, n.namespaceURI m.dom, n.pfx m.dom⟩
    else
      let pt := splitName (n.pfx m.dom) (n.nodeName m.dom)
      let p := pt.1
      let t := pt.2
      if n.isAttr m.dom && p.isEmpty then ⟨t, [], p⟩
      else
        match nameLoop t p (m.namespaceBindings ni) with
        | some q => q
        | none => ⟨n.nodeName m.dom, [], p⟩
  else ⟨n.nodeName m.dom, [], []⟩

/-! ### Root, string value, axes -/

/-- The loop of `root`: climb while the parent is not null. -/
def rootLoop : Nat → QDomNode → QDomNode
  | 0, n => n
  | fuel + 1, n => if !n.parentNode.isNull then rootLoop fuel n.parentNode else n

/-- Source `QDomNodeModel::root`. -/
def root (m : QDomNodeModel) (ni : QXmlNodeModelIndex) : QXmlNodeModelIndex :=
  let n := m.toDomNode ni
  m.fromDomNode (rootLoop n.depth n)

/-- Source `QDomNodeModel::stringValue`. -/
def stringValue (m : QDomNodeModel) (ni : QXmlNodeModelIndex) : QString :=
  let n := m.toDomNode ni
  if n.isProcessingInstruction m.dom then n.nodeValue m.dom
  else if n.isText m.dom then n.nodeValue m.dom
  else if n.isComment m.dom then n.nodeValue m.dom
  else if n.isElement m.dom then n.elementText m.dom
  else if n.isDocument m.dom then (n.documentElement m.dom).elementText m.dom
  else if n.isAttr m.dom then n.nodeValue m.dom
  else []

/-- Source `QDomNodeModel::typedValue`. -/
def typedValue (m : QDomNodeModel) (ni : QXmlNodeModelIndex) : QString :=
  m.stringValue ni

/-- The loop of `childIndex` over the children of the parent, from position `i` on. -/
def childIndexLoop (n : QDomNode) : List QDomNode → Int → Int
  | [], _ => -1
  | c :: cs, i => if c = n then i else childIndexLoop n cs (i + 1)

/-- Source `QDomNodeModel::childIndex`. -/
def childIndex (m : QDomNodeModel) (n : QDomNode) : Int :=
  childIndexLoop n (n.parentNode.childNodes m.dom) 0

/-- Source `QDomNodeModel::attributes`. -/
def attributes (m : QDomNodeModel) (element : QXmlNodeModelIndex) : List QXmlNodeModelIndex :=
  let n := m.toDomNode element
  let n := if n.isElement m.dom then n else QDomNode.null
  (n.attributes m.dom).map m.fromDomNode

/-- The axes of `nextFromSimpleAxis`; `Other` stands for a value outside the enumeration. -/
inductive SimpleAxis where
  | Parent
  | FirstChild
  | PreviousSibling
  | NextSibling
  | Other
deriving DecidableEq, Repr

/-- Source `QDomNodeModel::nextFromSimpleAxis`. -/
def nextFromSimpleAxis (m : QDomNodeModel) (axis : SimpleAxis) (origin : QXmlNodeModelIndex) :
    QXmlNodeModelIndex :=
  let n := m.toDomNode origin
  match axis with
  | SimpleAxis.Parent => m.fromDomNode n.parentNode
  | SimpleAxis.FirstChild => m.fromDomNode (n.firstChild m.dom)
  | SimpleAxis.PreviousSibling => m.fromDomNode (n.previousSibling m.dom)
  | SimpleAxis.NextSibling => m.fromDomNode (n.nextSibling m.dom)
  | SimpleAxis.Other => QXmlNodeModelIndex.empty

end QDomNodeModel

/-! ## Sample documents -/

/-- The record of an element as a parse without namespace processing leaves it: only the raw
name is set. -/
def NodeData.element (name : QString) : NodeData :=
  ⟨false, false, false, false, true, false, name, [], [], [], [], -1, -1⟩

/-- The record of an attribute with a raw name and a value. -/
def NodeData.attribute (name value : QString) : NodeData :=
  ⟨true, false, false, false, false, false, name, [], [], [], value, -1, -1⟩

/-- The record of a text node. -/
def NodeData.textNode (value : QString) : NodeData :=
  ⟨false, true, false, false, false, false, "#text".toList, [], [], [], value, -1, -1⟩

/-- The record of a document node. -/
def NodeData.document : NodeData :=
  ⟨false, false, false, true, false, false, "#document".toList, [], [], [], [], -1, -1⟩

/-- The record of a comment node. -/
def NodeData.comment (value : QString) : NodeData :=
  ⟨false, false, true, false, false, false, "#comment".toList, [], [], [], value, -1, -1⟩

/-- The handle of the node reached from the root of tree `t` by the child indices `is`
(outermost first). -/
def nodeAt (t : Nat) (is : List Nat) : QDomNode := ⟨some ⟨t, is.reverse, none⟩⟩

/-- The handle of attribute `i` of the element reached by `is` in tree `t`. -/
def attrAt (t : Nat) (is : List Nat) (i : Nat) : QDomNode := ⟨some ⟨t, is.reverse, some i⟩⟩

/-- The document `<a xmlns:p="U1"><b xmlns:p="U2"><c/></b></a>`. -/
def shadowDoc : QDomNodeModel :=
  ⟨[.mk NodeData.document []
      [.mk (NodeData.element ['a']) [NodeData.attribute "xmlns:p".toList "U1".toList]
        [.mk (NodeData.element ['b']) [NodeData.attribute "xmlns:p".toList "U2".toList]
          [.mk (NodeData.element ['c']) [] []]]]], false⟩

/-- The document `<a xmlns="D"><a b="v"/></a>`. -/
def defaultNsDoc : QDomNodeModel :=
  ⟨[.mk NodeData.document []
      [.mk (NodeData.element ['a']) [NodeData.attribute "xmlns".toList "D".toList]
        [.mk (NodeData.element ['a']) [NodeData.attribute "b".toList "v".toList] []]]], false⟩

/-- The tree of the document `<a>x<b>y</b>z</a>`: the document node, the element `a` below it
at `[0]`, the text `x` at `[0, 0]`, the element `b` at `[0, 1]`, the text `y` at `[0, 1, 0]` and
the text `z` at `[0, 2]`. -/
def textTree : DomTree :=
  .mk NodeData.document []
    [.mk (NodeData.element ['a']) []
      [.mk (NodeData.textNode ['x']) [] [],
       .mk (NodeData.element ['b']) [] [.mk (NodeData.textNode ['y']) [] []],
       .mk (NodeData.textNode ['z']) [] []]]

/-- The document `<a>x<b>y</b>z</a>`, read-only mode off. -/
def textDoc : QDomNodeModel := ⟨[textTree], false⟩

/-- The document `<e b="1" a="2"/>` as parsed from one line of text, read-only mode on: the
element carries the position the parser recorded, the attributes carry none (`-1`, `-1`). -/
def readOnlyAttrDoc : QDomNodeModel :=
  ⟨[.mk NodeData.document []
      [.mk { NodeData.element ['e'] with lineNumber := 1, columnNumber := 17 }
        [NodeData.attribute ['b'] ['1'], NodeData.attribute ['a'] ['2']] []]], true⟩

/-! ## Vocabulary of the properties -/

open QDomNodeModel

/-- The nodes an ascent of `k` rounds visits from `n`: `n`, its parent, the parent of that, and
so on (the null node when the ascent runs past the root). -/
def QDomNode.climb : Nat → QDomNode → List QDomNode
  | 0, _ => []
  | k + 1, n => n :: QDomNode.climb k n.parentNode

/-- The node itself followed by its ancestors, nearest first, the root last. -/
def QDomNode.ancestorsOrSelf (n : QDomNode) : List QDomNode :=
  QDomNode.climb n.depth n

/-- An attribute name declares the prefix `P`: it is `xmlns:P`, or it is `xmlns` and `P` is
empty. -/
def Declares (a P : QString) : Prop :=
  a = xmlnsColonLit ++ P ∨ (a = xmlnsLit ∧ P = [])

instance instDecidableDeclares (a P : QString) : Decidable (Declares a P) := by
  unfold Declares
  exact inferInstance

/-- The bindings of a scope that carry the prefix `P`. -/
def bindingsFor (P : QString) (bs : List QXmlName) : List QXmlName :=
  bs.filter (fun b => decide (b.pfx = P))

/-- The document `<a xmlns:xml="foo"/>`. -/
def xmlRedeclaredDoc : QDomNodeModel :=
  ⟨[.mk NodeData.document []
      [.mk (NodeData.element ['a']) [NodeData.attribute "xmlns:xml".toList "foo".toList] []]],
    false⟩

/-- The document `<p:foo/>`, parsed without namespace processing: the element has the raw name
`p:foo`, no explicit prefix and no namespace URI, and nothing declares `p`. -/
def unboundPrefixDoc : QDomNodeModel :=
  ⟨[.mk NodeData.document [] [.mk (NodeData.element "p:foo".toList) [] []]], false⟩

/-- The document `<e xml:lang="en"/>`, which declares no namespace at all. -/
def xmlLangDoc : QDomNodeModel :=
  ⟨[.mk NodeData.document []
      [.mk (NodeData.element ['e']) [NodeData.attribute "xml:lang".toList "en".toList] []]],
    false⟩

mutual
/-- The strict descendants of a node by child steps, in document order (depth first, a node
before its children, children in child order). -/
def DomTree.descendants : DomTree → List DomTree
  | .mk _ _ cs => DomTree.descendantsOfList cs
/-- The nodes of a child list with their descendants, in document order. -/
def DomTree.descendantsOfList : List DomTree → List DomTree
  | [] => []
  | .mk d a cs :: rest =>
    .mk d a cs :: ((DomTree.mk d a cs).descendants ++ DomTree.descendantsOfList rest)
end

/-- The character content of the text nodes of a list of nodes, concatenated in list order. -/
def textContent (l : List DomTree) : QString :=
  ((l.filter (fun d => d.data.isText)).map (fun d => d.data.nodeValue)).flatten

/-- Child lists occur only under elements: every descendant of the node that has children is
an element and not a text node (text, comment and processing instruction nodes are leaves). -/
def DomTree.ChildrenUnderElements (t : DomTree) : Prop :=
  ∀ d ∈ t.descendants, d.children.length ≠ 0 → d.data.isElement = true ∧ d.data.isText = false

instance instDecidableChildrenUnderElements (t : DomTree) :
    Decidable t.ChildrenUnderElements := by
  unfold DomTree.ChildrenUnderElements
  exact inferInstance

mutual
/-- The depth-first pre-order traversal of a tree: the node itself first, then the traversals
of its children in child order.  Each visited node is given by its child indices from the
root. -/
def DomTree.preorder : DomTree → List (List Nat)
  | .mk _ _ cs => [] :: DomTree.preorderFrom 0 cs
/-- The traversals of the trees of a child list, one after the other; `i` is the index of the
first child of the list. -/
def DomTree.preorderFrom : Nat → List DomTree → List (List Nat)
  | _, [] => []
  | i, .mk d a cs :: rest =>
    ((DomTree.mk d a cs).preorder.map (fun q => i :: q)) ++ DomTree.preorderFrom (i + 1) rest
end

/-- The number of nodes a traversal visits before it reaches `q` (the length of the traversal
when it never does). -/
def visitIndex (q : List Nat) : List (List Nat) → Nat
  | [] => 0
  | r :: l => if r = q then 0 else visitIndex q l + 1

/-- Node `qa` is visited before node `qb` by the depth-first pre-order traversal of `T`: both
are visited, and fewer nodes are visited before `qa` than before `qb`. -/
def DomTree.ComesBefore (T : DomTree) (qa qb : List Nat) : Prop :=
  qa ∈ T.preorder ∧ qb ∈ T.preorder ∧ visitIndex qa T.preorder < visitIndex qb T.preorder

instance instDecidableComesBefore (T : DomTree) (qa qb : List Nat) :
    Decidable (T.ComesBefore qa qb) := by
  unfold DomTree.ComesBefore
  exact inferInstance

/-- The answers of a node to the six kind predicates, in the order in which `kind` asks them. -/
def QDomNode.kindAnswers (h : DomStore) (n : QDomNode) : List Bool :=
  [n.isAttr h, n.isText h, n.isComment h, n.isDocument h, n.isElement h,
    n.isProcessingInstruction h]

/-- The document `<e b="1" a="2"/>`, read-only mode off; the provider enumerates the attribute
`b` first. -/
def attrOrderDoc : QDomNodeModel :=
  ⟨[.mk NodeData.document []
      [.mk (NodeData.element ['e'])
        [NodeData.attribute ['b'] ['1'], NodeData.attribute ['a'] ['2']] []]], false⟩

/-- A store with two trees: the document `<a>x<b>y</b>z</a>` and, apart from it, an element
`d` with a child `e` that was never attached to the document.  Read-only mode off. -/
def twoTreeDoc : QDomNodeModel :=
  ⟨[textTree, .mk (NodeData.element ['d']) [] [.mk (NodeData.element ['e']) [] []]], false⟩

/-- The document `<a>`, line break, `<b/><c/>`, line break, `</a>` with the positions a parser
records, read-only mode on: `a` at line 1, `b` and `c` both on line 2 at different columns. -/
def positionedDoc : QDomNodeModel :=
  ⟨[.mk NodeData.document []
      [.mk { NodeData.element ['a'] with lineNumber := 1, columnNumber := 3 } []
        [.mk { NodeData.element ['b'] with lineNumber := 2, columnNumber := 6 } [] [],
         .mk { NodeData.element ['c'] with lineNumber := 2, columnNumber := 10 } [] []]]],
    true⟩

/-- The recorded position of `a` is smaller than that of `b` as a pair (line, column) in
lexicographic order. -/
def PositionBefore (h : DomStore) (a b : QDomNode) : Prop :=
  a.lineNumber h < b.lineNumber h ∨
    (a.lineNumber h = b.lineNumber h ∧ a.columnNumber h < b.columnNumber h)

instance instDecidablePositionBefore (h : DomStore) (a b : QDomNode) :
    Decidable (PositionBefore h a b) := by
  unfold PositionBefore
  exact inferInstance

/-- The answer with the two arguments exchanged: `Precedes` and `Follows` change places, `Is`
stays. -/
def DocumentOrder.flip : DocumentOrder → DocumentOrder
  | DocumentOrder.Precedes => DocumentOrder.Follows
  | DocumentOrder.Is => DocumentOrder.Is
  | DocumentOrder.Follows => DocumentOrder.Precedes

/-- Reference definition, in the words of the specification: an attribute named `xmlns`
declares the prefix `""`, an attribute named `xmlns:P` declares the prefix `P`, any other
attribute declares nothing. -/
def referencePrefix (a : QString) : Option QString :=
  if a = xmlnsLit then some []
  else if a.take 6 = xmlnsColonLit then some (a.drop 6)
  else none

/-- Reference definition: the namespace declarations of a node, then of its parent, and so on
up to the root, each node's declarations in attribute order. -/
def referenceDeclarations (h : DomStore) (n : QDomNode) : List QXmlName :=
  n.ancestorsOrSelf.flatMap (fun x =>
    (x.attributes h).filterMap (fun a =>
      (referencePrefix (a.nodeName h)).map (fun P => (⟨xmlnsLit, a.nodeValue h, P⟩ : QXmlName))))

/-- Reference definition: keep for each prefix only its first occurrence in the sequence. -/
def keepFirst : List QXmlName → List QXmlName
  | [] => []
  | b :: bs => b :: (keepFirst bs).filter (fun c => decide (c.pfx ≠ b.pfx))

/-- Reference definition of the scope of a node: the kept declarations, followed by the fixed
binding of `xml` if and only if no kept binding has the prefix `xml`. -/
def referenceBindings (h : DomStore) (n : QDomNode) : List QXmlName :=
  if (keepFirst (referenceDeclarations h n)).any (fun b => decide (b.pfx = xmlLit)) then
    keepFirst (referenceDeclarations h n)
  else keepFirst (referenceDeclarations h n) ++ [xmlBinding]

/-- The document `<a xmlns="D" xmlns:p="U1" c="v"><b xmlns:p="U2" xmlns:q="W" xmlns="E"/></a>`:
declarations that shadow one another and an attribute that declares nothing. -/
def scopeDoc : QDomNodeModel :=
  ⟨[.mk NodeData.document []
      [.mk (NodeData.element ['a'])
        [NodeData.attribute "xmlns".toList ['D'], NodeData.attribute "xmlns:p".toList "U1".toList,
         NodeData.attribute ['c'] ['v']]
        [.mk (NodeData.element ['b'])
          [NodeData.attribute "xmlns:p".toList "U2".toList,
           NodeData.attribute "xmlns:q".toList ['W'],
           NodeData.attribute "xmlns".toList ['E']] []]]], false⟩

/-! # Properties -/

/-! ## The ascent -/

theorem QDomNode.isNull_null : QDomNode.null.isNull = true := rfl

theorem QDomNode.parentNode_null : QDomNode.null.parentNode = QDomNode.null := rfl

theorem QDomNode.attributes_null (h : DomStore) : QDomNode.null.attributes h = [] := rfl

theorem QDomNode.eq_null_of_isNull {n : QDomNode} (hn : n.isNull = true) : n = QDomNode.null := by
  cases n with
  | mk impl =>
    cases impl with
    | none => rfl
    | some l => simp [QDomNode.isNull] at hn

theorem QDomNode.depth_parentNode {n : QDomNode} (hn : n.isNull = false) :
    n.parentNode.depth + 1 = n.depth := by
  cases n with
  | mk impl =>
    cases impl with
    | none => simp [QDomNode.isNull] at hn
    | some l =>
      obtain ⟨t, rp, ai⟩ := l
      cases ai with
      | some i => simp [QDomNode.parentNode, QDomNode.depth]
      | none =>
        cases rp with
        | nil => simp [QDomNode.parentNode, QDomNode.depth, QDomNode.null]
        | cons i rp => simp [QDomNode.parentNode, QDomNode.depth]

theorem QDomNode.depth_eq_zero_iff {n : QDomNode} : n.depth = 0 ↔ n.isNull = true := by
  cases n with
  | mk impl =>
    cases impl with
    | none => simp [QDomNode.depth, QDomNode.isNull]
    | some l =>
      obtain ⟨t, rp, ai⟩ := l
      cases ai <;> simp [QDomNode.depth, QDomNode.isNull]

theorem QDomNode.iterate_parentNode_null (k : Nat) :
    QDomNode.parentNode^[k] QDomNode.null = QDomNode.null := by
  induction k with
  | zero => rfl
  | succ k ih => rw [Function.iterate_succ_apply, QDomNode.parentNode_null, ih]

theorem QDomNode.depth_iterate_parentNode (k : Nat) (n : QDomNode) :
    (QDomNode.parentNode^[k] n).depth = n.depth - k := by
  induction k generalizing n with
  | zero => simp
  | succ k ih =>
    rw [Function.iterate_succ_apply, ih]
    by_cases hn : n.isNull = true
    · rw [QDomNode.eq_null_of_isNull hn, QDomNode.parentNode_null]
      simp [QDomNode.depth, QDomNode.null]
    · have := QDomNode.depth_parentNode (Bool.eq_false_iff.mpr hn)
      omega

theorem QDomNode.climb_add (j r : Nat) (n : QDomNode) :
    QDomNode.climb (j + r) n = QDomNode.climb j n ++ QDomNode.climb r (QDomNode.parentNode^[j] n) := by
  induction j generalizing n with
  | zero => simp [QDomNode.climb]
  | succ j ih =>
    rw [Nat.succ_add, QDomNode.climb, QDomNode.climb, ih, Function.iterate_succ_apply]
    rfl

theorem QDomNode.mem_climb {k : Nat} {n x : QDomNode} :
    x ∈ QDomNode.climb k n ↔ ∃ j, j < k ∧ x = QDomNode.parentNode^[j] n := by
  induction k generalizing n with
  | zero => simp [QDomNode.climb]
  | succ k ih =>
    rw [QDomNode.climb, List.mem_cons, ih]
    constructor
    · rintro (rfl | ⟨j, hj, rfl⟩)
      · exact ⟨0, Nat.succ_pos k, rfl⟩
      · exact ⟨j + 1, Nat.succ_lt_succ hj, by rw [Function.iterate_succ_apply]⟩
    · rintro ⟨j, hj, rfl⟩
      cases j with
      | zero => exact Or.inl rfl
      | succ j =>
        exact Or.inr ⟨j, Nat.lt_of_succ_lt_succ hj, by rw [Function.iterate_succ_apply]⟩

theorem QDomNode.climb_null_attributes (h : DomStore) (k : Nat) :
    (QDomNode.climb k QDomNode.null).flatMap (QDomNode.attributes h) = [] := by
  induction k with
  | zero => rfl
  | succ k ih =>
    rw [QDomNode.climb, List.flatMap_cons, QDomNode.parentNode_null, ih]
    rfl

/-! ## Namespace bindings: the loops -/

/-- The attribute nodes the ascent of `namespaceBindings` meets, in the order it meets them. -/
theorem namespaceBindingsLoop_eq_foldl (h : DomStore) (fuel : Nat) (n : QDomNode)
    (st : List QXmlName × Bool) :
    namespaceBindingsLoop h fuel n st =
      ((QDomNode.climb fuel n).flatMap (QDomNode.attributes h)).foldl (bindingStep h) st := by
  induction fuel generalizing n st with
  | zero => rfl
  | succ fuel ih =>
    rw [namespaceBindingsLoop]
    by_cases hn : n.isNull = true
    · rw [if_pos hn, QDomNode.eq_null_of_isNull hn, QDomNode.climb, List.flatMap_cons,
        QDomNode.parentNode_null, QDomNode.climb_null_attributes, QDomNode.attributes_null]
      rfl
    · rw [if_neg hn, ih, QDomNode.climb, List.flatMap_cons, List.foldl_append]

/-- More rounds than the depth of the node change nothing: the ascent has ended. -/
theorem namespaceBindingsLoop_fuel (h : DomStore) (extra : Nat) (n : QDomNode)
    (st : List QXmlName × Bool) :
    namespaceBindingsLoop h (n.depth + extra) n st = namespaceBindingsLoop h n.depth n st := by
  rw [namespaceBindingsLoop_eq_foldl, namespaceBindingsLoop_eq_foldl, QDomNode.climb_add,
    List.flatMap_append]
  have hnull : QDomNode.parentNode^[n.depth] n = QDomNode.null := by
    apply QDomNode.eq_null_of_isNull
    rw [← QDomNode.depth_eq_zero_iff, QDomNode.depth_iterate_parentNode]
    omega
  rw [hnull, QDomNode.climb_null_attributes, List.append_nil]

theorem findPrefix_le (p : QString) (l : List QXmlName) : findPrefix p l ≤ l.length := by
  induction l with
  | nil => simp [findPrefix]
  | cons b bs ih =>
    rw [findPrefix]
    split
    · simp
    · simp
      omega

theorem findPrefix_ge_iff (p : QString) (l : List QXmlName) :
    findPrefix p l ≥ l.length ↔ bindingsFor p l = [] := by
  induction l with
  | nil => simp [findPrefix, bindingsFor]
  | cons b bs ih =>
    rw [findPrefix]
    by_cases hb : b.pfx = p
    · simp [hb, bindingsFor]
    · rw [if_neg hb]
      simp only [bindingsFor, List.length_cons, ge_iff_le, Nat.add_le_add_iff_right] at ih ⊢
      rw [ih, List.filter_cons_of_neg (by simpa using hb)]

theorem declaredPrefix_eq_some_iff (a P : QString) :
    declaredPrefix a = some P ↔ Declares a P := by
  unfold declaredPrefix Declares
  by_cases h1 : a = xmlnsLit
  · subst h1
    simp [xmlnsLit, xmlnsColonLit, eq_comm]
  · rw [if_neg h1]
    by_cases h2 : xmlnsColonLit.isPrefixOf a = true
    · rw [if_pos h2]
      obtain ⟨r, rfl⟩ := List.isPrefixOf_iff_prefix.mp h2
      simp [xmlnsColonLit, xmlnsLit, eq_comm]
    · rw [if_neg h2]
      have h3 : ∀ P, a ≠ xmlnsColonLit ++ P := by
        intro P hP
        apply h2
        rw [List.isPrefixOf_iff_prefix]
        exact ⟨P, hP.symm⟩
      simp [h1, h3]

theorem bindingStep_of_not_declared (h : DomStore) (st : List QXmlName × Bool) (a : QDomNode)
    (P : QString) (hd : ¬ Declares (a.nodeName h) P) :
    bindingsFor P (bindingStep h st a).1 = bindingsFor P st.1 := by
  unfold bindingStep
  cases hp : declaredPrefix (a.nodeName h) with
  | none => rfl
  | some p =>
    have hne : p ≠ P := by
      rintro rfl
      exact hd ((declaredPrefix_eq_some_iff _ _).mp hp)
    simp only
    split
    · simp [bindingsFor, List.filter_append, hne]
    · rfl

theorem bindingStep_of_bound (h : DomStore) (st : List QXmlName × Bool) (a : QDomNode)
    (P : QString) (hb : bindingsFor P st.1 ≠ []) :
    bindingsFor P (bindingStep h st a).1 = bindingsFor P st.1 := by
  by_cases hd : Declares (a.nodeName h) P
  · unfold bindingStep
    rw [(declaredPrefix_eq_some_iff _ _).mpr hd]
    simp only
    rw [if_neg]
    rw [findPrefix_ge_iff]
    exact hb
  · exact bindingStep_of_not_declared h st a P hd

theorem bindingStep_of_fresh (h : DomStore) (st : List QXmlName × Bool) (a : QDomNode)
    (P : QString) (hd : Declares (a.nodeName h) P) (hb : bindingsFor P st.1 = []) :
    bindingStep h st a =
      (st.1 ++ [⟨xmlnsLit, a.nodeValue h, P⟩], if P = xmlLit then true else st.2) := by
  unfold bindingStep
  rw [(declaredPrefix_eq_some_iff _ _).mpr hd]
  simp only
  rw [if_pos ((findPrefix_ge_iff _ _).mpr hb)]

theorem foldl_bindingStep_of_not_declared (h : DomStore) (P : QString) (l : List QDomNode)
    (st : List QXmlName × Bool) (hl : ∀ a ∈ l, ¬ Declares (a.nodeName h) P) :
    bindingsFor P (l.foldl (bindingStep h) st).1 = bindingsFor P st.1 := by
  induction l generalizing st with
  | nil => rfl
  | cons a l ih =>
    rw [List.foldl_cons, ih _ (fun x hx => hl x (List.mem_cons_of_mem a hx)),
      bindingStep_of_not_declared h st a P (hl a (List.mem_cons_self a l))]

theorem foldl_bindingStep_of_bound (h : DomStore) (P : QString) (l : List QDomNode)
    (st : List QXmlName × Bool) (hb : bindingsFor P st.1 ≠ []) :
    bindingsFor P (l.foldl (bindingStep h) st).1 = bindingsFor P st.1 := by
  induction l generalizing st with
  | nil => rfl
  | cons a l ih =>
    have hs := bindingStep_of_bound h st a P hb
    rw [List.foldl_cons, ih _ (by rw [hs]; exact hb), hs]

/-- The first declaration of a prefix that the loops meet is the one that stays. -/
theorem foldl_bindingStep_first (h : DomStore) (P : QString) (l1 l2 : List QDomNode)
    (a : QDomNode) (st : List QXmlName × Bool) (hb : bindingsFor P st.1 = [])
    (h1 : ∀ x ∈ l1, ¬ Declares (x.nodeName h) P) (ha : Declares (a.nodeName h) P) :
    bindingsFor P ((l1 ++ a :: l2).foldl (bindingStep h) st).1 =
      [⟨xmlnsLit, a.nodeValue h, P⟩] := by
  have hpre := foldl_bindingStep_of_not_declared h P l1 st h1
  rw [hb] at hpre
  have hstep := bindingStep_of_fresh h (l1.foldl (bindingStep h) st) a P ha hpre
  have hnow : bindingsFor P (bindingStep h (l1.foldl (bindingStep h) st) a).1 =
      [⟨xmlnsLit, a.nodeValue h, P⟩] := by
    rw [hstep]
    simp only [bindingsFor, List.filter_append] at hpre ⊢
    rw [hpre]
    simp
  rw [List.foldl_append, List.foldl_cons, foldl_bindingStep_of_bound h P l2 _ (by rw [hnow]; simp),
    hnow]

/-- The flag `xmlNamespaceDefined` is set exactly when `result` holds a binding of `xml`. -/
theorem foldl_bindingStep_flag (h : DomStore) (l : List QDomNode) (st : List QXmlName × Bool)
    (hst : st.2 = true ↔ bindingsFor xmlLit st.1 ≠ []) :
    (l.foldl (bindingStep h) st).2 = true ↔
      bindingsFor xmlLit (l.foldl (bindingStep h) st).1 ≠ [] := by
  induction l generalizing st with
  | nil => exact hst
  | cons a l ih =>
    rw [List.foldl_cons]
    apply ih
    by_cases hb : bindingsFor xmlLit st.1 = []
    · by_cases hd : Declares (a.nodeName h) xmlLit
      · rw [bindingStep_of_fresh h st a xmlLit hd hb]
        simp [bindingsFor, List.filter_append]
      · rw [bindingStep_of_not_declared h st a xmlLit hd]
        have hsnd : (bindingStep h st a).2 = st.2 := by
          unfold bindingStep
          cases hp : declaredPrefix (a.nodeName h) with
          | none => rfl
          | some p =>
            have hne : p ≠ xmlLit := by
              rintro rfl
              exact hd ((declaredPrefix_eq_some_iff _ _).mp hp)
            simp only
            split
            · simp [hne]
            · rfl
        rw [hsnd]
        exact hst
    · rw [bindingStep_of_bound h st a xmlLit hb]
      have hsnd : (bindingStep h st a).2 = st.2 := by
        unfold bindingStep
        cases hp : declaredPrefix (a.nodeName h) with
        | none => rfl
        | some p =>
          simp only
          split
          · rename_i hge
            by_cases hpx : p = xmlLit
            · subst hpx
              exact absurd ((findPrefix_ge_iff _ _).mp hge) hb
            · simp [hpx]
          · rfl
      rw [hsnd]
      exact hst

/-! ## Namespace bindings: the result -/

/-- The pair `(result, xmlNamespaceDefined)` when the ascent from `n` has ended. -/
theorem namespaceBindings_eq (m : QDomNodeModel) (ni : QXmlNodeModelIndex) :
    m.namespaceBindings ni =
      if !((((m.toDomNode ni).ancestorsOrSelf.flatMap (QDomNode.attributes m.dom)).foldl
            (bindingStep m.dom) ([], false)).2)
      then (((m.toDomNode ni).ancestorsOrSelf.flatMap (QDomNode.attributes m.dom)).foldl
            (bindingStep m.dom) ([], false)).1 ++ [xmlBinding]
      else (((m.toDomNode ni).ancestorsOrSelf.flatMap (QDomNode.attributes m.dom)).foldl
            (bindingStep m.dom) ([], false)).1 := by
  unfold namespaceBindings QDomNode.ancestorsOrSelf
  simp only [namespaceBindingsLoop_eq_foldl]

theorem bindingsFor_namespaceBindings (m : QDomNodeModel) (ni : QXmlNodeModelIndex)
    (P : QString)
    (hP : bindingsFor P (((m.toDomNode ni).ancestorsOrSelf.flatMap
        (QDomNode.attributes m.dom)).foldl (bindingStep m.dom) ([], false)).1 ≠ []) :
    bindingsFor P (m.namespaceBindings ni) =
      bindingsFor P (((m.toDomNode ni).ancestorsOrSelf.flatMap
        (QDomNode.attributes m.dom)).foldl (bindingStep m.dom) ([], false)).1 := by
  rw [namespaceBindings_eq]
  have hflag := foldl_bindingStep_flag m.dom
    ((m.toDomNode ni).ancestorsOrSelf.flatMap (QDomNode.attributes m.dom)) ([], false)
    (by simp [bindingsFor])
  by_cases hx : P = xmlLit
  · subst hx
    rw [hflag.mpr hP]
    rfl
  · split
    · simp only [bindingsFor, List.filter_append]
      have : (xmlBinding.pfx = P) = False := by
        simp only [xmlBinding, eq_iff_iff, iff_false]
        exact fun hc => hx hc.symm
      simp [this]
    · rfl

/-- Nearest wins: the bindings for `P` in scope at a node are exactly the one made from the
first attribute declaring `P` on the nearest node, among the node and its ancestors, that has
such an attribute. -/
theorem namespaceBindings_nearest (m : QDomNodeModel) (ni : QXmlNodeModelIndex) (P : QString)
    (k : Nat) (a : QDomNode)
    (hnear : ∀ j, j < k → ∀ x ∈ (QDomNode.parentNode^[j] (m.toDomNode ni)).attributes m.dom,
      ¬ Declares (x.nodeName m.dom) P)
    (hfirst : ((QDomNode.parentNode^[k] (m.toDomNode ni)).attributes m.dom).find?
      (fun x => decide (Declares (x.nodeName m.dom) P)) = some a) :
    bindingsFor P (m.namespaceBindings ni) = [⟨xmlnsLit, a.nodeValue m.dom, P⟩] := by
  obtain ⟨hdecl, front, back, hsplit, hfront⟩ := List.find?_eq_some.mp hfirst
  have hk : k < (m.toDomNode ni).depth := by
    by_contra hge
    have hnull : QDomNode.parentNode^[k] (m.toDomNode ni) = QDomNode.null := by
      apply QDomNode.eq_null_of_isNull
      rw [← QDomNode.depth_eq_zero_iff, QDomNode.depth_iterate_parentNode]
      omega
    rw [hnull, QDomNode.attributes_null] at hsplit
    simp at hsplit
  obtain ⟨r, hr⟩ : ∃ r, (m.toDomNode ni).depth = k + (r + 1) :=
    ⟨(m.toDomNode ni).depth - k - 1, by omega⟩
  have hlist : (m.toDomNode ni).ancestorsOrSelf.flatMap (QDomNode.attributes m.dom) =
      (((QDomNode.climb k (m.toDomNode ni)).flatMap (QDomNode.attributes m.dom)) ++ front) ++
        a :: (back ++ (QDomNode.climb r (QDomNode.parentNode^[k] (m.toDomNode ni)).parentNode).flatMap
          (QDomNode.attributes m.dom)) := by
    unfold QDomNode.ancestorsOrSelf
    rw [hr, QDomNode.climb_add, QDomNode.climb, List.flatMap_append, List.flatMap_cons, hsplit]
    simp
  have hmain := foldl_bindingStep_first m.dom P
    (((QDomNode.climb k (m.toDomNode ni)).flatMap (QDomNode.attributes m.dom)) ++ front)
    (back ++ (QDomNode.climb r (QDomNode.parentNode^[k] (m.toDomNode ni)).parentNode).flatMap
      (QDomNode.attributes m.dom)) a ([], false) rfl
    (by
      intro x hx
      rcases List.mem_append.mp hx with hx | hx
      · obtain ⟨y, hy, hxy⟩ := List.mem_flatMap.mp hx
        obtain ⟨j, hj, rfl⟩ := QDomNode.mem_climb.mp hy
        exact hnear j hj x hxy
      · simpa using hfront x hx)
    (by simpa using hdecl)
  rw [← hlist] at hmain
  rw [bindingsFor_namespaceBindings m ni P (by rw [hmain]; simp), hmain]

/-- With no declaration of `P` on the node and its ancestors, the ascent binds nothing to `P`. -/
theorem namespaceBindings_undeclared (m : QDomNodeModel) (ni : QXmlNodeModelIndex) (P : QString)
    (hnone : ∀ x ∈ (m.toDomNode ni).ancestorsOrSelf, ∀ a ∈ x.attributes m.dom,
      ¬ Declares (a.nodeName m.dom) P) :
    bindingsFor P (m.namespaceBindings ni) = if P = xmlLit then [xmlBinding] else [] := by
  have hfold := foldl_bindingStep_of_not_declared m.dom P
    ((m.toDomNode ni).ancestorsOrSelf.flatMap (QDomNode.attributes m.dom)) ([], false)
    (by
      intro a ha
      obtain ⟨x, hx, hax⟩ := List.mem_flatMap.mp ha
      exact hnone x hx a hax)
  have hflag := foldl_bindingStep_flag m.dom
    ((m.toDomNode ni).ancestorsOrSelf.flatMap (QDomNode.attributes m.dom)) ([], false)
    (by simp [bindingsFor])
  rw [namespaceBindings_eq]
  by_cases hx : P = xmlLit
  · subst hx
    have hoff : ((((m.toDomNode ni).ancestorsOrSelf.flatMap (QDomNode.attributes m.dom)).foldl
        (bindingStep m.dom) ([], false)).2) = false := by
      rw [← Bool.not_eq_true, hflag, hfold]
      simp [bindingsFor]
    rw [hoff]
    simp only [Bool.not_false, if_true]
    have hsplit : bindingsFor xmlLit
        ((((m.toDomNode ni).ancestorsOrSelf.flatMap (QDomNode.attributes m.dom)).foldl
          (bindingStep m.dom) ([], false)).1 ++ [xmlBinding]) =
        bindingsFor xmlLit (((m.toDomNode ni).ancestorsOrSelf.flatMap
          (QDomNode.attributes m.dom)).foldl (bindingStep m.dom) ([], false)).1 ++
          bindingsFor xmlLit [xmlBinding] := by
      simp only [bindingsFor, List.filter_append]
    rw [hsplit, hfold]
    simp [bindingsFor, xmlBinding]
  · rw [if_neg hx]
    split
    · have hsplit : bindingsFor P
          ((((m.toDomNode ni).ancestorsOrSelf.flatMap (QDomNode.attributes m.dom)).foldl
            (bindingStep m.dom) ([], false)).1 ++ [xmlBinding]) =
          bindingsFor P (((m.toDomNode ni).ancestorsOrSelf.flatMap
            (QDomNode.attributes m.dom)).foldl (bindingStep m.dom) ([], false)).1 ++
            bindingsFor P [xmlBinding] := by
        simp only [bindingsFor, List.filter_append]
      rw [hsplit, hfold]
      have : ¬ (xmlLit = P) := fun hc => hx hc.symm
      simp [bindingsFor, xmlBinding, this]
    · rw [hfold]
      simp [bindingsFor]

/-- When some attribute on the node or an ancestor declares `P`, there is a nearest node with
such an attribute and a first such attribute on it. -/
theorem exists_nearest_declaration (h : DomStore) (n : QDomNode) (P : QString)
    (hsome : ∃ x ∈ n.ancestorsOrSelf, ∃ a ∈ x.attributes h, Declares (a.nodeName h) P) :
    ∃ k a, (∀ j, j < k → ∀ x ∈ (QDomNode.parentNode^[j] n).attributes h,
        ¬ Declares (x.nodeName h) P) ∧
      ((QDomNode.parentNode^[k] n).attributes h).find?
        (fun x => decide (Declares (x.nodeName h) P)) = some a := by
  classical
  obtain ⟨x, hx, a, ha, hd⟩ := hsome
  obtain ⟨j, _, rfl⟩ := QDomNode.mem_climb.mp hx
  have hex : ∃ k, ∃ a ∈ (QDomNode.parentNode^[k] n).attributes h, Declares (a.nodeName h) P :=
    ⟨j, a, ha, hd⟩
  refine ⟨Nat.find hex, ?_⟩
  obtain ⟨b, hb, hbd⟩ := Nat.find_spec hex
  cases hf : ((QDomNode.parentNode^[Nat.find hex] n).attributes h).find?
      (fun x => decide (Declares (x.nodeName h) P)) with
  | none =>
    rw [List.find?_eq_none] at hf
    exact absurd (by simpa using hbd) (hf b hb)
  | some c =>
    refine ⟨c, ?_, rfl⟩
    intro i hi y hy hyd
    exact Nat.find_min hex hi ⟨y, hy, hyd⟩

theorem mem_bindingsFor {P : QString} {bs : List QXmlName} {b : QXmlName} :
    b ∈ bindingsFor P bs ↔ b ∈ bs ∧ b.pfx = P := by
  simp [bindingsFor, List.mem_filter]

/-! ## The mandatory binding of `xml` -/

/-- C3, as the claim states it, fails: in `<a xmlns:xml="foo"/>` the scope at `a` holds no
binding with prefix `xml` and URI `http://www.w3.org/XML/1998/namespace`; the declared value
`foo` is kept instead. -/
theorem namespaceBindings_xml_redeclared :
    ¬ ∃ b ∈ xmlRedeclaredDoc.namespaceBindings (xmlRedeclaredDoc.fromDomNode (nodeAt 0 [0])),
      b.pfx = xmlLit ∧ b.namespaceUri = xmlNamespaceUri := by
  decide

/-- C3, amended: for every node the scope holds a binding with prefix `xml`; it holds the
binding of `xml` to `http://www.w3.org/XML/1998/namespace` exactly when no attribute named
`xmlns:xml` stands on the node or an ancestor, or the nearest such attribute (the first one on
the nearest node that has one) carries that URI as its value. -/
theorem namespaceBindings_xml_binding (m : QDomNodeModel) (ni : QXmlNodeModelIndex) :
    (∃ b ∈ m.namespaceBindings ni, b.pfx = xmlLit) ∧
    ((∃ b ∈ m.namespaceBindings ni, b.pfx = xmlLit ∧ b.namespaceUri = xmlNamespaceUri) ↔
      ∀ k a,
        (∀ j, j < k → ∀ x ∈ (QDomNode.parentNode^[j] (m.toDomNode ni)).attributes m.dom,
          ¬ Declares (x.nodeName m.dom) xmlLit) →
        ((QDomNode.parentNode^[k] (m.toDomNode ni)).attributes m.dom).find?
          (fun x => decide (Declares (x.nodeName m.dom) xmlLit)) = some a →
        a.nodeValue m.dom = xmlNamespaceUri) := by
  by_cases hsome : ∃ x ∈ (m.toDomNode ni).ancestorsOrSelf, ∃ a ∈ x.attributes m.dom,
      Declares (a.nodeName m.dom) xmlLit
  · obtain ⟨k, a, hnear, hfirst⟩ := exists_nearest_declaration m.dom (m.toDomNode ni) xmlLit hsome
    have hb := namespaceBindings_nearest m ni xmlLit k a hnear hfirst
    have hmem : (⟨xmlnsLit, a.nodeValue m.dom, xmlLit⟩ : QXmlName) ∈
        bindingsFor xmlLit (m.namespaceBindings ni) := by
      rw [hb]
      exact List.mem_singleton.mpr rfl
    refine ⟨⟨_, (mem_bindingsFor.mp hmem).1, rfl⟩, ?_, ?_⟩
    · rintro ⟨b, hbm, hbp, hbu⟩ k2 a2 hnear2 hfirst2
      have hb2 := namespaceBindings_nearest m ni xmlLit k2 a2 hnear2 hfirst2
      have hin : b ∈ bindingsFor xmlLit (m.namespaceBindings ni) := mem_bindingsFor.mpr ⟨hbm, hbp⟩
      rw [hb2, List.mem_singleton] at hin
      rw [← hbu, hin]
    · intro hall
      refine ⟨_, (mem_bindingsFor.mp hmem).1, rfl, ?_⟩
      exact hall k a hnear hfirst
  · have hnone : ∀ x ∈ (m.toDomNode ni).ancestorsOrSelf, ∀ a ∈ x.attributes m.dom,
        ¬ Declares (a.nodeName m.dom) xmlLit := by
      intro x hx a ha hd
      exact hsome ⟨x, hx, a, ha, hd⟩
    have hb := namespaceBindings_undeclared m ni xmlLit hnone
    rw [if_pos rfl] at hb
    have hmem : xmlBinding ∈ bindingsFor xmlLit (m.namespaceBindings ni) := by
      rw [hb]
      exact List.mem_singleton.mpr rfl
    refine ⟨⟨_, (mem_bindingsFor.mp hmem).1, rfl⟩, ?_, ?_⟩
    · rintro - k a hnear hfirst
      exfalso
      obtain ⟨hdecl, front, back, hsplit, -⟩ := List.find?_eq_some.mp hfirst
      have hk : k < (m.toDomNode ni).depth := by
        by_contra hge
        have hnull : QDomNode.parentNode^[k] (m.toDomNode ni) = QDomNode.null := by
          apply QDomNode.eq_null_of_isNull
          rw [← QDomNode.depth_eq_zero_iff, QDomNode.depth_iterate_parentNode]
          omega
        rw [hnull, QDomNode.attributes_null] at hsplit
        simp at hsplit
      refine hnone _ (QDomNode.mem_climb.mpr ⟨k, hk, rfl⟩) a ?_ (by simpa using hdecl)
      rw [hsplit]
      simp
    · intro _
      exact ⟨_, (mem_bindingsFor.mp hmem).1, rfl, rfl⟩

/-- C3, amended, at work: in `<a xmlns:p="U1"><b xmlns:p="U2"><c/></b></a>`, where `xml` is
declared nowhere, the scope at `c` holds the binding of `xml` to its fixed URI. -/
theorem namespaceBindings_xml_binding_example :
    ∃ b ∈ shadowDoc.namespaceBindings (shadowDoc.fromDomNode (nodeAt 0 [0, 0, 0])),
      b.pfx = xmlLit ∧ b.namespaceUri = xmlNamespaceUri :=
  (namespaceBindings_xml_binding shadowDoc (shadowDoc.fromDomNode (nodeAt 0 [0, 0, 0]))).2.mpr
    (by
      intro k a _ hfirst
      exfalso
      have hk : ∀ k, ((QDomNode.parentNode^[k] (nodeAt 0 [0, 0, 0])).attributes
          shadowDoc.dom).find? (fun x => decide (Declares (x.nodeName shadowDoc.dom) xmlLit)) =
            none := by
        intro k
        match k with
        | 0 => decide
        | 1 => decide
        | 2 => decide
        | 3 => decide
        | k + 4 =>
          rw [Function.iterate_add_apply]
          have h4 : QDomNode.parentNode^[4] (nodeAt 0 [0, 0, 0]) = QDomNode.null := by decide
          rw [h4, QDomNode.iterate_parentNode_null]
          rfl
      have h0 := hk k
      change ((QDomNode.parentNode^[k] (nodeAt 0 [0, 0, 0])).attributes shadowDoc.dom).find?
        (fun x => decide (Declares (x.nodeName shadowDoc.dom) xmlLit)) = some a at hfirst
      rw [h0] at hfirst
      cases hfirst)

/-! ## Shadowing -/

/-- C4: let `P` be declared, by an attribute named `xmlns:P` (or `xmlns` for the empty `P`), on
the `k`-th ancestor of a node (`k = 0` is the node itself) and on no nearer one, and let `a` be
the first attribute of that ancestor declaring `P`.  Then the scope at the node holds exactly
one binding for `P`, and its URI is the value of `a`. -/
theorem namespaceBindings_shadowing (m : QDomNodeModel) (ni : QXmlNodeModelIndex) (P : QString)
    (k : Nat) (a : QDomNode)
    (hnear : ∀ j, j < k → ∀ x ∈ (QDomNode.parentNode^[j] (m.toDomNode ni)).attributes m.dom,
      ¬ Declares (x.nodeName m.dom) P)
    (hfirst : ((QDomNode.parentNode^[k] (m.toDomNode ni)).attributes m.dom).find?
      (fun x => decide (Declares (x.nodeName m.dom) P)) = some a) :
    bindingsFor P (m.namespaceBindings ni) = [⟨xmlnsLit, a.nodeValue m.dom, P⟩] :=
  namespaceBindings_nearest m ni P k a hnear hfirst

/-- C4 on `<a xmlns:p="U1"><b xmlns:p="U2"><c/></b></a>`: the one binding for `p` at `c` is the
one to `U2`, declared on `b`, the parent of `c`. -/
theorem namespaceBindings_shadowing_example :
    bindingsFor ['p'] (shadowDoc.namespaceBindings (shadowDoc.fromDomNode (nodeAt 0 [0, 0, 0]))) =
      [⟨xmlnsLit, ['U', '2'], ['p']⟩] :=
  namespaceBindings_shadowing shadowDoc (shadowDoc.fromDomNode (nodeAt 0 [0, 0, 0])) ['p'] 1
    (attrAt 0 [0, 0] 0) (by decide) (by decide)

/-! ## Names -/

theorem indexOf_neg_iff (c : Char) (t : QString) : indexOf c t < 0 ↔ c ∉ t := by
  induction t with
  | nil => simp [indexOf]
  | cons x xs ih =>
    rw [indexOf]
    by_cases hx : x = c
    · simp [hx]
    · rw [if_neg hx]
      by_cases hneg : indexOf c xs < 0
      · rw [if_pos hneg]
        have := ih.mp hneg
        simp [this, Ne.symm hx]
      · rw [if_neg hneg]
        have hmem : c ∈ xs := by
          by_contra hc
          exact hneg (ih.mpr hc)
        simp only [List.mem_cons, hmem, or_true, not_true_eq_false, iff_false]
        omega

theorem splitName_of_no_colon (t : QString) (hc : ':' ∉ t) : splitName [] t = ([], t) := by
  unfold splitName
  simp [(indexOf_neg_iff ':' t).mpr hc]

theorem nameLoop_eq_find (t p : QString) (l : List QXmlName) :
    nameLoop t p l =
      (l.find? (fun b => decide (b.pfx = p))).map (fun b => ⟨t, b.namespaceUri, p⟩) := by
  induction l with
  | nil => rfl
  | cons b bs ih =>
    rw [nameLoop]
    by_cases hb : b.pfx = p
    · simp [hb]
    · rw [if_neg hb, ih, List.find?_cons_of_neg]
      simpa using hb

theorem find_eq_head_bindingsFor (p : QString) (l : List QXmlName) :
    l.find? (fun b => decide (b.pfx = p)) = (bindingsFor p l).head? := by
  induction l with
  | nil => rfl
  | cons b bs ih =>
    by_cases hb : b.pfx = p
    · simp [bindingsFor, hb]
    · rw [List.find?_cons_of_neg _ (by simpa using hb), ih]
      simp [bindingsFor, hb]

/-- The branch of `name` for an attribute or element without explicit namespace URI, once
the early return for unprefixed attributes is passed. -/
theorem name_lookup (m : QDomNodeModel) (ni : QXmlNodeModelIndex)
    (hkind : ((m.toDomNode ni).isElement m.dom = true ∧ (m.toDomNode ni).isAttr m.dom = false) ∨
      ((m.toDomNode ni).isAttr m.dom = true ∧
        (splitName ((m.toDomNode ni).pfx m.dom) ((m.toDomNode ni).nodeName m.dom)).1 ≠ []))
    (huri : (m.toDomNode ni).namespaceURI m.dom = []) :
    m.name ni =
      match (m.namespaceBindings ni).find? (fun b => decide (b.pfx =
        (splitName ((m.toDomNode ni).pfx m.dom) ((m.toDomNode ni).nodeName m.dom)).1)) with
      | some b =>
        ⟨(splitName ((m.toDomNode ni).pfx m.dom) ((m.toDomNode ni).nodeName m.dom)).2,
          b.namespaceUri,
          (splitName ((m.toDomNode ni).pfx m.dom) ((m.toDomNode ni).nodeName m.dom)).1⟩
      | none =>
        ⟨(m.toDomNode ni).nodeName m.dom, [],
          (splitName ((m.toDomNode ni).pfx m.dom) ((m.toDomNode ni).nodeName m.dom)).1⟩ := by
  have hfirst : ((m.toDomNode ni).isAttr m.dom || (m.toDomNode ni).isElement m.dom) = true := by
    rcases hkind with ⟨he, _⟩ | ⟨ha, _⟩
    · simp [he]
    · simp [ha]
  have hsecond : ((m.toDomNode ni).isAttr m.dom &&
      (splitName ((m.toDomNode ni).pfx m.dom) ((m.toDomNode ni).nodeName m.dom)).1.isEmpty) =
        false := by
    rcases hkind with ⟨_, ha⟩ | ⟨_, hp⟩
    · simp [ha]
    · simp [List.isEmpty_iff, hp]
  unfold name
  simp only [hfirst, huri, hsecond, nameLoop_eq_find, List.isEmpty_nil, Bool.not_true, if_true,
    Bool.false_eq_true, if_false]
  cases (m.namespaceBindings ni).find? (fun b => decide (b.pfx =
      (splitName ((m.toDomNode ni).pfx m.dom) ((m.toDomNode ni).nodeName m.dom)).1)) <;> rfl

/-- C5: an attribute without namespace URI, without explicit prefix and without a colon in
its raw name gets the name (raw name, no namespace, no prefix); nothing is assumed about the
declarations on its owner element and further up, so a default namespace in scope has no
effect. -/
theorem name_unprefixed_attribute (m : QDomNodeModel) (ni : QXmlNodeModelIndex)
    (hattr : (m.toDomNode ni).isAttr m.dom = true)
    (huri : (m.toDomNode ni).namespaceURI m.dom = [])
    (hpfx : (m.toDomNode ni).pfx m.dom = [])
    (hcolon : ':' ∉ (m.toDomNode ni).nodeName m.dom) :
    m.name ni = ⟨(m.toDomNode ni).nodeName m.dom, [], []⟩ := by
  unfold name
  simp [hattr, huri, hpfx, splitName_of_no_colon _ hcolon]

/-- C5 on `<a xmlns="D"><a b="v"/></a>`: the attribute `b` gets local name `b`, namespace URI
`""` and prefix `""`, although the default namespace `D` is in scope. -/
theorem name_unprefixed_attribute_example :
    defaultNsDoc.name (defaultNsDoc.fromDomNode (attrAt 0 [0, 0] 0)) = ⟨['b'], [], []⟩ ∧
    bindingsFor [] (defaultNsDoc.namespaceBindings (defaultNsDoc.fromDomNode (attrAt 0 [0, 0] 0)))
      = [⟨xmlnsLit, ['D'], []⟩] :=
  ⟨name_unprefixed_attribute defaultNsDoc (defaultNsDoc.fromDomNode (attrAt 0 [0, 0] 0))
    (by decide) (by decide) (by decide) (by decide), by decide⟩

/-- C6 fails on `<p:foo/>` with `p` undeclared: the prefix `p` and the local part `foo` are
derived by splitting, no binding for `p` is in scope, and `name` returns the whole raw name
`p:foo` as local name (with namespace URI `""` and prefix `p`), not `foo`. -/
theorem name_unbound_prefix_keeps_raw_name :
    splitName [] "p:foo".toList = (['p'], "foo".toList) ∧
    bindingsFor ['p'] (unboundPrefixDoc.namespaceBindings
      (unboundPrefixDoc.fromDomNode (nodeAt 0 [0]))) = [] ∧
    unboundPrefixDoc.name (unboundPrefixDoc.fromDomNode (nodeAt 0 [0])) =
      ⟨"p:foo".toList, [], ['p']⟩ := by
  decide

theorem splitName_xml (L : QString) :
    splitName [] ('x' :: 'm' :: 'l' :: ':' :: L) = (xmlLit, L) := by
  have h1 : ('x' : Char) ≠ ':' := by decide
  have h2 : ('m' : Char) ≠ ':' := by decide
  have h3 : ('l' : Char) ≠ ':' := by decide
  have hi : indexOf ':' ('x' :: 'm' :: 'l' :: ':' :: L) = 3 := by
    simp [indexOf, h1, h2, h3]
  unfold splitName
  simp [hi, xmlLit]

/-- C7: (1) for an element, or an attribute with a non-empty derived prefix, without explicit
namespace URI: when the scope of the node holds a binding for the derived prefix `P`, `name`
returns the derived local name, the URI of the first such binding, and `P`.
(2) An unprefixed element takes the value of the nearest declaration of the default namespace
on itself or its ancestors.  (3) An attribute with the raw name `xml:L`, with no declaration of
`xml` on its owner element and further up, gets the URI
`http://www.w3.org/XML/1998/namespace`. -/
theorem name_resolved :
    (∀ (m : QDomNodeModel) (ni : QXmlNodeModelIndex) (b : QXmlName),
      (((m.toDomNode ni).isElement m.dom = true ∧ (m.toDomNode ni).isAttr m.dom = false) ∨
        ((m.toDomNode ni).isAttr m.dom = true ∧
          (splitName ((m.toDomNode ni).pfx m.dom) ((m.toDomNode ni).nodeName m.dom)).1 ≠ [])) →
      (m.toDomNode ni).namespaceURI m.dom = [] →
      (m.namespaceBindings ni).find? (fun b => decide (b.pfx =
        (splitName ((m.toDomNode ni).pfx m.dom) ((m.toDomNode ni).nodeName m.dom)).1)) = some b →
      m.name ni =
        ⟨(splitName ((m.toDomNode ni).pfx m.dom) ((m.toDomNode ni).nodeName m.dom)).2,
          b.namespaceUri,
          (splitName ((m.toDomNode ni).pfx m.dom) ((m.toDomNode ni).nodeName m.dom)).1⟩) ∧
    (∀ (m : QDomNodeModel) (ni : QXmlNodeModelIndex) (k : Nat) (a : QDomNode),
      (m.toDomNode ni).isElement m.dom = true →
      (m.toDomNode ni).isAttr m.dom = false →
      (m.toDomNode ni).namespaceURI m.dom = [] →
      (m.toDomNode ni).pfx m.dom = [] →
      ':' ∉ (m.toDomNode ni).nodeName m.dom →
      (∀ j, j < k → ∀ x ∈ (QDomNode.parentNode^[j] (m.toDomNode ni)).attributes m.dom,
        ¬ Declares (x.nodeName m.dom) []) →
      ((QDomNode.parentNode^[k] (m.toDomNode ni)).attributes m.dom).find?
        (fun x => decide (Declares (x.nodeName m.dom) [])) = some a →
      m.name ni = ⟨(m.toDomNode ni).nodeName m.dom, a.nodeValue m.dom, []⟩) ∧
    (∀ (m : QDomNodeModel) (ni : QXmlNodeModelIndex) (L : QString),
      (m.toDomNode ni).isAttr m.dom = true →
      (m.toDomNode ni).namespaceURI m.dom = [] →
      (m.toDomNode ni).pfx m.dom = [] →
      (m.toDomNode ni).nodeName m.dom = 'x' :: 'm' :: 'l' :: ':' :: L →
      (∀ x ∈ (m.toDomNode ni).ancestorsOrSelf, ∀ a ∈ x.attributes m.dom,
        ¬ Declares (a.nodeName m.dom) xmlLit) →
      m.name ni = ⟨L, xmlNamespaceUri, xmlLit⟩) := by
  refine ⟨?_, ?_, ?_⟩
  · intro m ni b hkind huri hb
    rw [name_lookup m ni hkind huri, hb]
  · intro m ni k a helem hattr huri hpfx hcolon hnear hfirst
    have hsplit := splitName_of_no_colon _ hcolon
    have hb := namespaceBindings_nearest m ni [] k a hnear hfirst
    rw [name_lookup m ni (Or.inl ⟨helem, hattr⟩) huri, hpfx, hsplit, find_eq_head_bindingsFor, hb]
    rfl
  · intro m ni L hattr huri hpfx hname hnone
    have hb := namespaceBindings_undeclared m ni xmlLit hnone
    rw [if_pos rfl] at hb
    have hsplit := splitName_xml L
    rw [name_lookup m ni (Or.inr ⟨hattr, by rw [hpfx, hname, hsplit]; simp [xmlLit]⟩) huri, hpfx, hname,
      hsplit, find_eq_head_bindingsFor, hb]
    rfl

/-- C7 on `<a xmlns="D"><a b="v"/></a>` and on `<e xml:lang="en"/>`: the inner element `a`
gets the namespace URI `D`, and the attribute `xml:lang` gets the local name `lang` with the
URI `http://www.w3.org/XML/1998/namespace`. -/
theorem name_resolved_example :
    defaultNsDoc.name (defaultNsDoc.fromDomNode (nodeAt 0 [0, 0])) = ⟨['a'], ['D'], []⟩ ∧
    xmlLangDoc.name (xmlLangDoc.fromDomNode (attrAt 0 [0] 0)) =
      ⟨"lang".toList, xmlNamespaceUri, xmlLit⟩ :=
  ⟨name_resolved.2.1 defaultNsDoc (defaultNsDoc.fromDomNode (nodeAt 0 [0, 0])) 1
      (attrAt 0 [0] 0) (by decide) (by decide) (by decide) (by decide) (by decide) (by decide)
      (by decide),
    name_resolved.2.2 xmlLangDoc (xmlLangDoc.fromDomNode (attrAt 0 [0] 0)) "lang".toList
      (by decide) (by decide) (by decide) (by decide) (by decide)⟩

/-! ## The index codec -/

/-- C8: decoding the index of a non-null node gives the node back; two non-null nodes with
the same index are the same node; the null node is encoded as the empty index and the empty
index is decoded as the null node. -/
theorem index_codec_round_trip :
    (∀ (m : QDomNodeModel) (n : QDomNode), n.isNull = false →
      m.toDomNode (m.fromDomNode n) = n) ∧
    (∀ (m : QDomNodeModel) (a b : QDomNode), a.isNull = false → b.isNull = false →
      m.fromDomNode a = m.fromDomNode b → a = b) ∧
    (∀ m : QDomNodeModel, m.fromDomNode QDomNode.null = QXmlNodeModelIndex.empty) ∧
    (∀ m : QDomNodeModel, m.toDomNode QXmlNodeModelIndex.empty = QDomNode.null) := by
  refine ⟨?_, ?_, ?_, ?_⟩
  · intro m n hn
    unfold fromDomNode
    rw [hn]
    rfl
  · intro m a b ha hb hab
    unfold fromDomNode at hab
    rw [ha, hb] at hab
    simp only [Bool.false_eq_true, if_false, createIndex, QXmlNodeModelIndex.mk.injEq, and_true]
      at hab
    cases a
    cases b
    simp only at hab
    rw [hab]
  · intro m
    rfl
  · intro m
    rfl

/-- C8 at work on `<a>x<b>y</b>z</a>`: the index of `b` decodes to `b`, and it differs from
the index of `a`. -/
theorem index_codec_round_trip_example :
    textDoc.toDomNode (textDoc.fromDomNode (nodeAt 0 [0, 1])) = nodeAt 0 [0, 1] ∧
    textDoc.fromDomNode (nodeAt 0 [0, 1]) ≠ textDoc.fromDomNode (nodeAt 0 [0]) :=
  ⟨index_codec_round_trip.1 textDoc (nodeAt 0 [0, 1]) (by decide),
    fun h => absurd (index_codec_round_trip.2.1 textDoc (nodeAt 0 [0, 1]) (nodeAt 0 [0])
      (by decide) (by decide) h) (by decide)⟩

/-! ## Document order -/

/-- C9: comparing an index with itself gives `Is`, whatever the flag `m_ReadOnly` of the model
is; in particular `compareOrder(n, n)` is `Is` for every node `n` in both modes. -/
theorem compareOrder_self (m : QDomNodeModel) (ni : QXmlNodeModelIndex) :
    m.compareOrder ni ni = some DocumentOrder.Is := by
  unfold compareOrder
  simp

/-! ## String values -/

theorem textContent_append (l1 l2 : List DomTree) :
    textContent (l1 ++ l2) = textContent l1 ++ textContent l2 := by
  simp [textContent, List.filter_append]

theorem textContent_cons (c : DomTree) (l : List DomTree) :
    textContent (c :: l) = (if c.data.isText then c.data.nodeValue else []) ++ textContent l := by
  by_cases hc : c.data.isText = true
  · simp [textContent, hc]
  · simp [textContent, hc]

/-- The loop of `QDomElement::text` collects the text of all descendants when child lists occur
only under elements. -/
theorem textOfChildren_eq_textContent :
    ∀ cs : List DomTree,
      (∀ d ∈ DomTree.descendantsOfList cs,
        d.children.length ≠ 0 → d.data.isElement = true ∧ d.data.isText = false) →
      DomTree.textOfChildren cs = textContent (DomTree.descendantsOfList cs)
  | [], _ => rfl
  | .mk d a cs :: rest, hshape => by
    have hhead := hshape (.mk d a cs) (by simp [DomTree.descendantsOfList])
    have hinner : ∀ x ∈ DomTree.descendantsOfList cs,
        x.children.length ≠ 0 → x.data.isElement = true ∧ x.data.isText = false := by
      intro x hx
      apply hshape
      simp [DomTree.descendantsOfList, DomTree.descendants, hx]
    have htail : ∀ x ∈ DomTree.descendantsOfList rest,
        x.children.length ≠ 0 → x.data.isElement = true ∧ x.data.isText = false := by
      intro x hx
      apply hshape
      simp [DomTree.descendantsOfList, hx]
    have ih1 := textOfChildren_eq_textContent cs hinner
    have ih2 := textOfChildren_eq_textContent rest htail
    rw [DomTree.textOfChildren, DomTree.descendantsOfList, textContent_cons, textContent_append,
      ih2, DomTree.text, DomTree.descendants, ih1]
    simp only [DomTree.data, DomTree.children] at hhead ⊢
    by_cases hleaf : cs.length = 0
    · have hcs : cs = [] := List.length_eq_zero.mp hleaf
      subst hcs
      by_cases ht : d.isText = true
      · simp [ht, DomTree.descendantsOfList, textContent]
      · by_cases he : d.isElement = true <;>
          simp [ht, he, DomTree.descendantsOfList, textContent]
    · obtain ⟨he, ht⟩ := hhead hleaf
      simp [he, ht]

/-- C10: for an element `e` (a node that answers yes to `isElement` and no to the predicates
asked before it) in a tree where child lists occur only under elements, `stringValue` is the
concatenation, in document order, of the character content of all text nodes among the
descendants of `e`, at any depth. -/
theorem stringValue_element (m : QDomNodeModel) (t : Nat) (rp : List Nat) (e : DomTree)
    (hnode : m.dom.subtree ⟨t, rp, none⟩ = some e)
    (helem : e.data.isElement = true)
    (hpi : e.data.isProcessingInstruction = false)
    (htext : e.data.isText = false)
    (hcomment : e.data.isComment = false)
    (hshape : e.ChildrenUnderElements) :
    m.stringValue (m.fromDomNode ⟨some ⟨t, rp, none⟩⟩) = textContent e.descendants := by
  have hrec : QDomNode.record m.dom ⟨some ⟨t, rp, none⟩⟩ = some e.data := by
    simp [QDomNode.record, hnode]
  have htxt : QDomNode.elementText m.dom ⟨some ⟨t, rp, none⟩⟩ = e.text := by
    simp [QDomNode.elementText, hnode, helem]
  have hidx : m.toDomNode (m.fromDomNode ⟨some ⟨t, rp, none⟩⟩) = ⟨some ⟨t, rp, none⟩⟩ := rfl
  unfold stringValue
  simp only [hidx, QDomNode.isProcessingInstruction, QDomNode.isText, QDomNode.isComment,
    QDomNode.isElement, hrec, hpi, htext, hcomment, helem, htxt, Bool.false_eq_true, if_false,
    if_true]
  cases e with
  | mk d a cs =>
    rw [DomTree.text, DomTree.descendants]
    exact textOfChildren_eq_textContent cs hshape

/-- C10 on `<a>x<b>y</b>z</a>`: the string value of `a` is `xyz`; `y` is the text of a
grandchild. -/
theorem stringValue_element_example :
    textDoc.stringValue (textDoc.fromDomNode (nodeAt 0 [0])) = ['x', 'y', 'z'] :=
  stringValue_element textDoc 0 [0]
    (.mk (NodeData.element ['a']) []
      [.mk (NodeData.textNode ['x']) [] [],
       .mk (NodeData.element ['b']) [] [.mk (NodeData.textNode ['y']) [] []],
       .mk (NodeData.textNode ['z']) [] []])
    rfl (by decide) (by decide) (by decide) (by decide) (by decide)

/-! ## Ancestor paths -/

theorem pathLoop_acc (fuel : Nat) (n : QDomNode) (r : List QDomNode) :
    pathLoop fuel n r = r ++ pathLoop fuel n [] := by
  induction fuel generalizing n r with
  | zero => simp [pathLoop]
  | succ fuel ih =>
    rw [pathLoop, pathLoop]
    by_cases hn : n.isNull = true
    · simp [hn]
    · rw [if_neg hn, if_neg hn, ih, ih n.parentNode ([] ++ [n])]
      simp

/-- The path of a node is the path of its parent followed by the node. -/
theorem path_of_not_null (m : QDomNodeModel) (n : QDomNode) (hn : n.isNull = false) :
    m.path n = m.path n.parentNode ++ [n] := by
  unfold path
  obtain ⟨d, hd⟩ : ∃ d, n.depth = d + 1 := ⟨n.parentNode.depth, (QDomNode.depth_parentNode hn).symm⟩
  have hp : n.parentNode.depth = d := by
    have := QDomNode.depth_parentNode hn
    omega
  rw [hd, hp, pathLoop, hn, pathLoop_acc]
  simp

theorem path_nodeAt_nil (m : QDomNodeModel) (t : Nat) :
    m.path (nodeAt t []) = [nodeAt t []] := rfl

theorem path_nodeAt_snoc (m : QDomNodeModel) (t : Nat) (q : List Nat) (i : Nat) :
    m.path (nodeAt t (q ++ [i])) = m.path (nodeAt t q) ++ [nodeAt t (q ++ [i])] := by
  rw [path_of_not_null m (nodeAt t (q ++ [i])) rfl]
  simp [nodeAt, QDomNode.parentNode]

theorem path_nodeAt_length (m : QDomNodeModel) (t : Nat) (q : List Nat) :
    (m.path (nodeAt t q)).length = q.length + 1 := by
  induction q using List.reverseRecOn with
  | nil => rfl
  | append_singleton q i ih => rw [path_nodeAt_snoc, List.length_append, ih]; simp

/-- Position `i` of the path of a node holds the ancestor reached by the first `i` child
steps from the root. -/
theorem path_nodeAt_getElem (m : QDomNodeModel) (t : Nat) (q : List Nat) (i : Nat)
    (hi : i ≤ q.length) : (m.path (nodeAt t q))[i]? = some (nodeAt t (q.take i)) := by
  induction q using List.reverseRecOn with
  | nil =>
    have : i = 0 := by simpa using hi
    subst this
    rfl
  | append_singleton q j ih =>
    rw [path_nodeAt_snoc]
    by_cases hlt : i ≤ q.length
    · rw [List.getElem?_append_left (by rw [path_nodeAt_length]; omega), ih hlt,
        List.take_append_of_le_length hlt]
    · have hi2 : i = q.length + 1 := by
        simp only [List.length_append, List.length_singleton] at hi
        omega
      subst hi2
      rw [List.getElem?_append_right (by rw [path_nodeAt_length]), path_nodeAt_length]
      have htake : List.take (q.length + 1) (q ++ [j]) = q ++ [j] :=
        List.take_of_length_le (by simp)
      simp [htake]

/-! ## The provider on child handles -/

theorem nodeAt_inj {t : Nat} {q1 q2 : List Nat} : nodeAt t q1 = nodeAt t q2 ↔ q1 = q2 := by
  simp [nodeAt]

theorem DomTree.descend_append (T : DomTree) (c r : List Nat) :
    T.descend (c ++ r) = (T.descend c).bind (fun C => C.descend r) := by
  induction c generalizing T with
  | nil => simp [DomTree.descend]
  | cons i c ih =>
    cases T with
    | mk d a cs =>
      simp only [List.cons_append, DomTree.descend]
      cases cs[i]? with
      | none => rfl
      | some C => exact ih C

theorem DomTree.lt_of_descend_cons {C D : DomTree} {x : Nat} {r : List Nat}
    (h : C.descend (x :: r) = some D) : x < C.children.length := by
  cases C with
  | mk d a cs =>
    simp only [DomTree.descend] at h
    simp only [DomTree.children]
    by_contra hge
    rw [List.getElem?_eq_none (by omega)] at h
    cases h

theorem childCount_nodeAt (h : DomStore) (t : Nat) (c : List Nat) (T C : DomTree)
    (hT : h[t]? = some T) (hC : T.descend c = some C) :
    (nodeAt t c).childCount h = C.children.length := by
  simp [nodeAt, QDomNode.childCount, DomStore.subtree, hT, hC]

theorem firstChild_nodeAt (h : DomStore) (t : Nat) (c : List Nat)
    (hpos : 0 < (nodeAt t c).childCount h) :
    (nodeAt t c).firstChild h = nodeAt t (c ++ [0]) := by
  have hpos2 : 0 < QDomNode.childCount h ⟨some ⟨t, c.reverse, none⟩⟩ := hpos
  simp [nodeAt, QDomNode.firstChild, hpos2]

theorem nextSibling_nodeAt (h : DomStore) (t : Nat) (c : List Nat) (i : Nat)
    (hlt : i + 1 < (nodeAt t c).childCount h) :
    (nodeAt t (c ++ [i])).nextSibling h = nodeAt t (c ++ [i + 1]) := by
  have hlt2 : i + 1 < QDomNode.childCount h ⟨some ⟨t, c.reverse, none⟩⟩ := hlt
  simp [nodeAt, QDomNode.nextSibling, hlt2]

/-- The scan over the children of a node, started at child `i`, meets the child with the
smaller index first. -/
theorem siblingScan_children (h : DomStore) (t : Nat) (c : List Nat) (x y N : Nat)
    (hN : (nodeAt t c).childCount h = N) (hx : x < N) (hy : y < N) (hxy : x ≠ y) :
    ∀ fuel i, i + fuel = N → i ≤ x → i ≤ y →
      siblingScan h (nodeAt t (c ++ [x])) (nodeAt t (c ++ [y])) fuel (nodeAt t (c ++ [i])) =
        if x < y then DocumentOrder.Precedes else DocumentOrder.Follows := by
  intro fuel
  induction fuel with
  | zero =>
    intro i hi hix _
    omega
  | succ fuel ih =>
    intro i hi hix hiy
    rw [siblingScan]
    have hnn : (nodeAt t (c ++ [i])).isNull = false := rfl
    rw [hnn]
    simp only [Bool.false_eq_true, if_false, nodeAt_inj, List.append_cancel_left_eq,
      List.cons.injEq, and_true]
    by_cases h1 : i = x
    · rw [if_pos h1, if_pos (by omega)]
    · rw [if_neg h1]
      by_cases h2 : i = y
      · rw [if_pos h2, if_neg (by omega)]
      · rw [if_neg h2, nextSibling_nodeAt h t c i (by omega)]
        exact ih (i + 1) (by omega) (by omega) (by omega)

/-! ## Document order on the general path -/

/-- The loop over the two paths runs to the first position where they differ and hands the
two nodes found there, with the node above them, to the scan over the children. -/
theorem compareOrderLoop_diverge (h : DomStore) (p1 p2 : List QDomNode) (s K : Nat)
    (A B above : QDomNode)
    (hagree : ∀ j, j ≤ K → ∃ v, p1[j]? = some v ∧ p2[j]? = some v)
    (hA : p1[K + 1]? = some A) (hB : p2[K + 1]? = some B) (hAB : A ≠ B)
    (habove : p1[K]? = some above) (hs : K + 1 < s) :
    ∀ fuel i, 1 ≤ i → i ≤ K + 1 → K + 1 < i + fuel →
      compareOrderLoop h p1 p2 s fuel i =
        some (siblingScan h A B (above.childCount h) (above.firstChild h)) := by
  intro fuel
  induction fuel with
  | zero =>
    intro i _ h2 h3
    omega
  | succ fuel ih =>
    intro i h1 h2 h3
    rw [compareOrderLoop, if_pos (by omega)]
    by_cases hi : i = K + 1
    · subst hi
      simp only [hA, hB, Nat.add_sub_cancel, habove]
      rw [if_pos hAB]
    · obtain ⟨v, hv1, hv2⟩ := hagree i (by omega)
      obtain ⟨w, hw1, _⟩ := hagree (i - 1) (by omega)
      simp only [hv1, hv2, hw1, ne_eq, not_true_eq_false, if_false]
      exact ih (i + 1) (by omega) (by omega) (by omega)

/-- General path: two nodes of one tree whose ways from the root part below a common node, at
the children `x` and `y` of that node, are ordered as `x` and `y` are. -/
theorem compareOrder_diverging (m : QDomNodeModel) (hro : m.m_ReadOnly = false) (t : Nat)
    (T : DomTree) (hT : m.dom[t]? = some T) (c : List Nat) (x y : Nat) (ra rb : List Nat)
    (hxy : x ≠ y) (ha : (T.descend (c ++ x :: ra)).isSome = true)
    (hb : (T.descend (c ++ y :: rb)).isSome = true) :
    m.compareOrder (m.fromDomNode (nodeAt t (c ++ x :: ra)))
        (m.fromDomNode (nodeAt t (c ++ y :: rb))) =
      some (if x < y then DocumentOrder.Precedes else DocumentOrder.Follows) := by
  obtain ⟨C, hC, hx, hy⟩ : ∃ C, T.descend c = some C ∧ x < C.children.length ∧
      y < C.children.length := by
    rw [DomTree.descend_append] at ha hb
    cases hC : T.descend c with
    | none => simp [hC] at ha
    | some C =>
      rw [hC] at ha hb
      simp only [Option.some_bind] at ha hb
      obtain ⟨D, hD⟩ := Option.isSome_iff_exists.mp ha
      obtain ⟨E, hE⟩ := Option.isSome_iff_exists.mp hb
      exact ⟨C, rfl, DomTree.lt_of_descend_cons hD, DomTree.lt_of_descend_cons hE⟩
  have hcount := childCount_nodeAt m.dom t c T C hT hC
  have hne : nodeAt t (c ++ x :: ra) ≠ nodeAt t (c ++ y :: rb) := by
    rw [Ne, nodeAt_inj]
    intro hq
    have := List.append_cancel_left hq
    simp only [List.cons.injEq] at this
    exact hxy this.1
  have hlen1 := path_nodeAt_length m t (c ++ x :: ra)
  have hlen2 := path_nodeAt_length m t (c ++ y :: rb)
  simp only [List.length_append, List.length_cons] at hlen1 hlen2
  have htake1 : ∀ j, j ≤ c.length → (m.path (nodeAt t (c ++ x :: ra)))[j]? =
      some (nodeAt t (c.take j)) := by
    intro j hj
    rw [path_nodeAt_getElem m t _ j (by simp; omega), List.take_append_of_le_length hj]
  have htake2 : ∀ j, j ≤ c.length → (m.path (nodeAt t (c ++ y :: rb)))[j]? =
      some (nodeAt t (c.take j)) := by
    intro j hj
    rw [path_nodeAt_getElem m t _ j (by simp; omega), List.take_append_of_le_length hj]
  have hA : (m.path (nodeAt t (c ++ x :: ra)))[c.length + 1]? = some (nodeAt t (c ++ [x])) := by
    rw [path_nodeAt_getElem m t _ _ (by simp)]
    simp [List.take_append_eq_append_take, List.take_of_length_le (Nat.le_succ c.length)]
  have hB : (m.path (nodeAt t (c ++ y :: rb)))[c.length + 1]? = some (nodeAt t (c ++ [y])) := by
    rw [path_nodeAt_getElem m t _ _ (by simp)]
    simp [List.take_append_eq_append_take, List.take_of_length_le (Nat.le_succ c.length)]
  have habove : (m.path (nodeAt t (c ++ x :: ra)))[c.length]? = some (nodeAt t c) := by
    rw [htake1 c.length (Nat.le_refl _), List.take_length]
  have hloop := compareOrderLoop_diverge m.dom (m.path (nodeAt t (c ++ x :: ra)))
    (m.path (nodeAt t (c ++ y :: rb)))
    (if (m.path (nodeAt t (c ++ x :: ra))).length < (m.path (nodeAt t (c ++ y :: rb))).length
      then (m.path (nodeAt t (c ++ x :: ra))).length
      else (m.path (nodeAt t (c ++ y :: rb))).length)
    c.length (nodeAt t (c ++ [x])) (nodeAt t (c ++ [y])) (nodeAt t c)
    (fun j hj => ⟨_, htake1 j hj, htake2 j hj⟩) hA hB
    (by
      rw [Ne, nodeAt_inj]
      simpa using hxy)
    habove
    (by
      rw [hlen1, hlen2]
      split <;> omega)
  have hscan := siblingScan_children m.dom t c x y C.children.length hcount hx hy hxy
    C.children.length 0 (by omega) (Nat.zero_le _) (Nat.zero_le _)
  have hfirst := firstChild_nodeAt m.dom t c (by rw [hcount]; omega)
  have hroot1 := htake1 0 (Nat.zero_le _)
  have hroot2 := htake2 0 (Nat.zero_le _)
  have hidx : ∀ q, m.toDomNode (m.fromDomNode (nodeAt t q)) = nodeAt t q := fun _ => rfl
  unfold compareOrder
  simp only [hidx, hne, if_false, hro, Bool.false_eq_true, hroot1, hroot2, ne_eq,
    not_true_eq_false]
  rw [hloop _ 1 (Nat.le_refl _) (by omega) (by
    rw [hlen1, hlen2]
    split <;> omega)]
  rw [hcount, hfirst, hscan]

/-! ## The pre-order traversal -/

theorem DomTree.preorderFrom_cons (i : Nat) (c : DomTree) (rest : List DomTree) :
    DomTree.preorderFrom i (c :: rest) =
      c.preorder.map (fun q => i :: q) ++ DomTree.preorderFrom (i + 1) rest := by
  cases c with
  | mk d a cs => rw [DomTree.preorderFrom]

theorem DomTree.preorder_eq (T : DomTree) :
    T.preorder = [] :: DomTree.preorderFrom 0 T.children := by
  cases T with
  | mk d a cs => rw [DomTree.preorder, DomTree.children]

/-- Every node of the traversal of a child list starts with the index of its child. -/
theorem DomTree.head_of_mem_preorderFrom (cs : List DomTree) (i : Nat) (q : List Nat)
    (hq : q ∈ DomTree.preorderFrom i cs) :
    ∃ j r, q = j :: r ∧ i ≤ j ∧ j < i + cs.length := by
  induction cs generalizing i with
  | nil => simp [DomTree.preorderFrom] at hq
  | cons c rest ih =>
    rw [DomTree.preorderFrom_cons, List.mem_append] at hq
    rcases hq with hq | hq
    · obtain ⟨r, _, rfl⟩ := List.mem_map.mp hq
      exact ⟨i, r, rfl, Nat.le_refl _, by simp⟩
    · obtain ⟨j, r, rfl, h1, h2⟩ := ih (i + 1) hq
      exact ⟨j, r, rfl, by omega, by simp only [List.length_cons]; omega⟩

theorem DomTree.mem_preorderFrom (cs : List DomTree) (i k : Nat) (C : DomTree) (r : List Nat)
    (hk : cs[k]? = some C) (hr : r ∈ C.preorder) :
    (i + k) :: r ∈ DomTree.preorderFrom i cs := by
  induction cs generalizing i k with
  | nil => simp at hk
  | cons c rest ih =>
    rw [DomTree.preorderFrom_cons, List.mem_append]
    cases k with
    | zero =>
      simp only [List.getElem?_cons_zero, Option.some.injEq] at hk
      subst hk
      exact Or.inl (List.mem_map.mpr ⟨r, hr, rfl⟩)
    | succ k =>
      simp only [List.getElem?_cons_succ] at hk
      have := ih (i + 1) k hk
      rw [Nat.add_assoc, Nat.add_comm 1 k] at this
      exact Or.inr this

/-- Every node of the tree is visited by the traversal. -/
theorem DomTree.mem_preorder_of_descend (q : List Nat) :
    ∀ T : DomTree, (T.descend q).isSome = true → q ∈ T.preorder := by
  induction q with
  | nil =>
    intro T _
    rw [DomTree.preorder_eq]
    exact List.mem_cons_self _ _
  | cons j r ih =>
    intro T hT
    cases T with
    | mk d a cs =>
      simp only [DomTree.descend] at hT
      cases hC : cs[j]? with
      | none => simp [hC] at hT
      | some C =>
        rw [hC] at hT
        have hr := ih C hT
        have := DomTree.mem_preorderFrom cs 0 j C r hC hr
        rw [Nat.zero_add] at this
        rw [DomTree.preorder_eq]
        exact List.mem_cons_of_mem _ this

theorem visitIndex_le_length (q : List Nat) (l : List (List Nat)) :
    visitIndex q l ≤ l.length := by
  induction l with
  | nil => simp [visitIndex]
  | cons r l ih =>
    rw [visitIndex]
    split
    · simp
    · simp only [List.length_cons]
      omega

theorem visitIndex_lt_length {q : List Nat} {l : List (List Nat)} :
    visitIndex q l < l.length ↔ q ∈ l := by
  induction l with
  | nil => simp [visitIndex]
  | cons r l ih =>
    rw [visitIndex]
    by_cases hr : r = q
    · simp [hr]
    · rw [if_neg hr]
      simp only [List.length_cons, Nat.add_lt_add_iff_right, List.mem_cons, ih]
      constructor
      · exact Or.inr
      · rintro (h | h)
        · exact absurd h.symm hr
        · exact h

theorem visitIndex_append_of_mem {q : List Nat} {l1 l2 : List (List Nat)} (hq : q ∈ l1) :
    visitIndex q (l1 ++ l2) = visitIndex q l1 := by
  induction l1 with
  | nil => simp at hq
  | cons r l1 ih =>
    rw [List.cons_append, visitIndex, visitIndex]
    by_cases hr : r = q
    · simp [hr]
    · rw [if_neg hr, if_neg hr, ih]
      rcases List.mem_cons.mp hq with h | h
      · exact absurd h.symm hr
      · exact h

theorem visitIndex_append_of_not_mem {q : List Nat} {l1 l2 : List (List Nat)} (hq : q ∉ l1) :
    visitIndex q (l1 ++ l2) = l1.length + visitIndex q l2 := by
  induction l1 with
  | nil => simp
  | cons r l1 ih =>
    have hr : r ≠ q := fun h => hq (h ▸ List.mem_cons_self _ _)
    rw [List.cons_append, visitIndex, if_neg hr, ih (fun h => hq (List.mem_cons_of_mem _ h))]
    simp only [List.length_cons]
    omega

theorem visitIndex_map_cons (i : Nat) (q : List Nat) (l : List (List Nat)) :
    visitIndex (i :: q) (l.map (fun r => i :: r)) = visitIndex q l := by
  induction l with
  | nil => rfl
  | cons r l ih =>
    rw [List.map_cons, visitIndex, visitIndex]
    by_cases hr : r = q
    · simp [hr]
    · rw [if_neg hr, if_neg (by simpa using hr), ih]

theorem DomTree.not_mem_block (i j : Nat) (q : List Nat) (l : List (List Nat)) (hij : j ≠ i) :
    j :: q ∉ l.map (fun r => i :: r) := by
  intro hmem
  obtain ⟨r, _, hr⟩ := List.mem_map.mp hmem
  simp only [List.cons.injEq] at hr
  exact hij hr.1.symm

/-- Nodes below different children are visited in the order of the children. -/
theorem DomTree.visitIndex_preorderFrom_of_ne (cs : List DomTree) (i x y : Nat) (ra rb : List Nat)
    (hxy : x ≠ y) (ha : x :: ra ∈ DomTree.preorderFrom i cs)
    (hb : y :: rb ∈ DomTree.preorderFrom i cs) :
    visitIndex (x :: ra) (DomTree.preorderFrom i cs) <
      visitIndex (y :: rb) (DomTree.preorderFrom i cs) ↔ x < y := by
  induction cs generalizing i with
  | nil => simp [DomTree.preorderFrom] at ha
  | cons c rest ih =>
    rw [DomTree.preorderFrom_cons] at ha hb ⊢
    have hgt : ∀ j q, j :: q ∈ DomTree.preorderFrom (i + 1) rest → i < j := by
      intro j q hq
      obtain ⟨j2, r, hjr, h1, _⟩ := DomTree.head_of_mem_preorderFrom rest (i + 1) _ hq
      simp only [List.cons.injEq] at hjr
      omega
    by_cases hx : x = i
    · have hax : x :: ra ∈ c.preorder.map (fun q => i :: q) := by
        rcases List.mem_append.mp ha with h | h
        · exact h
        · have := hgt x ra h
          omega
      have hby : y :: rb ∉ c.preorder.map (fun q => i :: q) :=
        DomTree.not_mem_block i y rb _ (by omega)
      have hyi : i < y := by
        rcases List.mem_append.mp hb with h | h
        · exact absurd h hby
        · exact hgt y rb h
      rw [visitIndex_append_of_mem hax, visitIndex_append_of_not_mem hby]
      have := visitIndex_lt_length.mpr hax
      constructor
      · intro _
        omega
      · intro _
        omega
    · have hax : x :: ra ∉ c.preorder.map (fun q => i :: q) :=
        DomTree.not_mem_block i x ra _ hx
      have hxi : i < x := by
        rcases List.mem_append.mp ha with h | h
        · exact absurd h hax
        · exact hgt x ra h
      have har : x :: ra ∈ DomTree.preorderFrom (i + 1) rest := by
        rcases List.mem_append.mp ha with h | h
        · exact absurd h hax
        · exact h
      by_cases hy : y = i
      · have hby : y :: rb ∈ c.preorder.map (fun q => i :: q) := by
          rcases List.mem_append.mp hb with h | h
          · exact h
          · have := hgt y rb h
            omega
        rw [visitIndex_append_of_mem hby, visitIndex_append_of_not_mem hax]
        have := visitIndex_lt_length.mpr hby
        constructor
        · intro _
          omega
        · intro _
          omega
      · have hby : y :: rb ∉ c.preorder.map (fun q => i :: q) :=
          DomTree.not_mem_block i y rb _ hy
        have hbr : y :: rb ∈ DomTree.preorderFrom (i + 1) rest := by
          rcases List.mem_append.mp hb with h | h
          · exact absurd h hby
          · exact h
        rw [visitIndex_append_of_not_mem hax, visitIndex_append_of_not_mem hby,
          Nat.add_lt_add_iff_left]
        exact ih (i + 1) har hbr

/-- Nodes below the same child are visited in the order of the traversal of that child. -/
theorem DomTree.visitIndex_preorderFrom_of_eq (cs : List DomTree) (i k : Nat) (C : DomTree)
    (q1 q2 : List Nat) (hk : cs[k]? = some C) (h1 : q1 ∈ C.preorder) :
    (visitIndex ((i + k) :: q1) (DomTree.preorderFrom i cs) <
      visitIndex ((i + k) :: q2) (DomTree.preorderFrom i cs) ↔
        visitIndex q1 C.preorder < visitIndex q2 C.preorder) := by
  induction cs generalizing i k with
  | nil => simp at hk
  | cons c rest ih =>
    rw [DomTree.preorderFrom_cons]
    cases k with
    | zero =>
      simp only [List.getElem?_cons_zero, Option.some.injEq] at hk
      subst hk
      have hm1 : (i + 0) :: q1 ∈ c.preorder.map (fun q => i :: q) :=
        List.mem_map.mpr ⟨q1, h1, rfl⟩
      rw [visitIndex_append_of_mem hm1]
      by_cases h2 : q2 ∈ c.preorder
      · have hm2 : (i + 0) :: q2 ∈ c.preorder.map (fun q => i :: q) :=
          List.mem_map.mpr ⟨q2, h2, rfl⟩
        rw [visitIndex_append_of_mem hm2]
        simp only [Nat.add_zero, visitIndex_map_cons]
      · have hm2 : (i + 0) :: q2 ∉ c.preorder.map (fun q => i :: q) := by
          intro hmem
          obtain ⟨r, hr, hrq⟩ := List.mem_map.mp hmem
          simp only [Nat.add_zero, List.cons.injEq, true_and] at hrq
          exact h2 (hrq ▸ hr)
        rw [visitIndex_append_of_not_mem hm2]
        have hlt := visitIndex_lt_length.mpr hm1
        have hlt1 := visitIndex_lt_length.mpr h1
        have hge : visitIndex q2 c.preorder = c.preorder.length := by
          have hle : visitIndex q2 c.preorder ≤ c.preorder.length := visitIndex_le_length q2 c.preorder
          by_contra hne
          exact h2 (visitIndex_lt_length.mp (by omega))
        rw [List.length_map] at hlt
        constructor
        · intro _
          omega
        · intro _
          rw [List.length_map]
          omega
    | succ k =>
      simp only [List.getElem?_cons_succ] at hk
      have hn1 : (i + (k + 1)) :: q1 ∉ c.preorder.map (fun q => i :: q) :=
        DomTree.not_mem_block i _ q1 _ (by omega)
      have hn2 : (i + (k + 1)) :: q2 ∉ c.preorder.map (fun q => i :: q) :=
        DomTree.not_mem_block i _ q2 _ (by omega)
      rw [visitIndex_append_of_not_mem hn1, visitIndex_append_of_not_mem hn2,
        Nat.add_lt_add_iff_left]
      have := ih (i + 1) k hk
      rw [Nat.add_assoc, Nat.add_comm 1 k] at this
      exact this

/-- Below a common node, the traversal reaches the nodes under child `x` before those under
child `y` exactly when `x < y`. -/
theorem DomTree.visitIndex_diverging (c : List Nat) :
    ∀ (T : DomTree) (x y : Nat) (ra rb : List Nat), x ≠ y →
      (T.descend (c ++ x :: ra)).isSome = true → (T.descend (c ++ y :: rb)).isSome = true →
      (visitIndex (c ++ x :: ra) T.preorder < visitIndex (c ++ y :: rb) T.preorder ↔ x < y) := by
  induction c with
  | nil =>
    intro T x y ra rb hxy ha hb
    have hma := DomTree.mem_preorder_of_descend _ T ha
    have hmb := DomTree.mem_preorder_of_descend _ T hb
    rw [DomTree.preorder_eq] at hma hmb ⊢
    simp only [List.nil_append, List.mem_cons, List.cons_ne_nil, false_or] at hma hmb ⊢
    have hnil : ∀ q : List Nat, q ≠ [] →
        visitIndex q ([] :: DomTree.preorderFrom 0 T.children) =
          visitIndex q (DomTree.preorderFrom 0 T.children) + 1 := by
      intro q hq
      rw [visitIndex, if_neg (Ne.symm hq)]
    rw [hnil _ (List.cons_ne_nil _ _), hnil _ (List.cons_ne_nil _ _), Nat.add_lt_add_iff_right]
    exact DomTree.visitIndex_preorderFrom_of_ne T.children 0 x y ra rb hxy hma hmb
  | cons j c ih =>
    intro T x y ra rb hxy ha hb
    cases T with
    | mk d a cs =>
      simp only [List.cons_append, DomTree.descend] at ha hb
      cases hC : cs[j]? with
      | none => simp [hC] at ha
      | some C =>
        rw [hC] at ha hb
        have hma := DomTree.mem_preorder_of_descend _ C ha
        rw [DomTree.preorder_eq]
        simp only [List.cons_append, DomTree.children]
        have hnil : ∀ q : List Nat, q ≠ [] →
            visitIndex q ([] :: DomTree.preorderFrom 0 cs) =
              visitIndex q (DomTree.preorderFrom 0 cs) + 1 := by
          intro q hq
          rw [visitIndex, if_neg (Ne.symm hq)]
        rw [hnil _ (List.cons_ne_nil _ _), hnil _ (List.cons_ne_nil _ _),
          Nat.add_lt_add_iff_right]
        have hblock := DomTree.visitIndex_preorderFrom_of_eq cs 0 j C (c ++ x :: ra)
          (c ++ y :: rb) hC hma
        rw [Nat.zero_add] at hblock
        rw [hblock]
        exact ih C x y ra rb hxy ha hb

/-- Two nodes whose ways from the root part at the children `x` and `y` of a common node are
visited by the traversal in the order of `x` and `y`. -/
theorem DomTree.comesBefore_diverging (c : List Nat) (T : DomTree) (x y : Nat)
    (ra rb : List Nat) (hxy : x ≠ y) (ha : (T.descend (c ++ x :: ra)).isSome = true)
    (hb : (T.descend (c ++ y :: rb)).isSome = true) :
    T.ComesBefore (c ++ x :: ra) (c ++ y :: rb) ↔ x < y := by
  unfold DomTree.ComesBefore
  rw [DomTree.visitIndex_diverging c T x y ra rb hxy ha hb]
  exact ⟨fun h => h.2.2, fun h => ⟨DomTree.mem_preorder_of_descend _ T ha,
    DomTree.mem_preorder_of_descend _ T hb, h⟩⟩

/-- Two lists neither of which is a prefix of the other part at some position. -/
theorem exists_divergence (qa qb : List Nat) (h1 : ¬ qa <+: qb) (h2 : ¬ qb <+: qa) :
    ∃ c x y ra rb, x ≠ y ∧ qa = c ++ x :: ra ∧ qb = c ++ y :: rb := by
  induction qa generalizing qb with
  | nil => exact absurd (List.nil_prefix) h1
  | cons x ra ih =>
    cases qb with
    | nil => exact absurd (List.nil_prefix) h2
    | cons y rb =>
      by_cases hxy : x = y
      · subst hxy
        have h1r : ¬ ra <+: rb := fun hp => h1 ((List.prefix_cons_inj x).mpr hp)
        have h2r : ¬ rb <+: ra := fun hp => h2 ((List.prefix_cons_inj x).mpr hp)
        obtain ⟨c, u, v, sa, sb, huv, hsa, hsb⟩ := ih rb h1r h2r
        exact ⟨x :: c, u, v, sa, sb, huv, by rw [hsa]; rfl, by rw [hsb]; rfl⟩
      · exact ⟨[], x, y, ra, rb, hxy, rfl, rfl⟩

/-- C1, as the claim states it, fails.  With read-only mode off, in `<a>x<b>y</b>z</a>` the
element `a` and its child `b` are distinct, their paths start at the same root, `a` is visited
before `b` by the traversal, and `compareOrder(a, b)` is `Is`.  With read-only mode on, in
`<e b="1" a="2"/>` the two attributes are distinct, their paths start at the same root, both
carry the position (`-1`, `-1`), and `compareOrder(b, a)` is `Is`. -/
theorem compareOrder_not_total :
    (nodeAt 0 [0] ≠ nodeAt 0 [0, 1] ∧
      (textDoc.path (nodeAt 0 [0]))[0]? = (textDoc.path (nodeAt 0 [0, 1]))[0]? ∧
      textTree.ComesBefore [0] [0, 1] ∧
      textDoc.compareOrder (textDoc.fromDomNode (nodeAt 0 [0]))
        (textDoc.fromDomNode (nodeAt 0 [0, 1])) = some DocumentOrder.Is) ∧
    (attrAt 0 [0] 0 ≠ attrAt 0 [0] 1 ∧
      (readOnlyAttrDoc.path (attrAt 0 [0] 0))[0]? = (readOnlyAttrDoc.path (attrAt 0 [0] 1))[0]? ∧
      readOnlyAttrDoc.compareOrder (readOnlyAttrDoc.fromDomNode (attrAt 0 [0] 0))
        (readOnlyAttrDoc.fromDomNode (attrAt 0 [0] 1)) = some DocumentOrder.Is) := by
  decide

/-- C1, amended: with read-only mode off, for two nodes of one tree, both reached from the
root by child steps and neither an ancestor of the other (so they are distinct),
`compareOrder` returns `Precedes` or `Follows`, never `Is`, and it returns `Precedes` exactly
when the first node is visited before the second by the depth-first pre-order traversal. -/
theorem compareOrder_document_order (m : QDomNodeModel) (hro : m.m_ReadOnly = false) (t : Nat)
    (T : DomTree) (hT : m.dom[t]? = some T) (qa qb : List Nat)
    (ha : (T.descend qa).isSome = true) (hb : (T.descend qb).isSome = true)
    (hab : ¬ qa <+: qb) (hba : ¬ qb <+: qa) :
    (m.compareOrder (m.fromDomNode (nodeAt t qa)) (m.fromDomNode (nodeAt t qb)) =
        some DocumentOrder.Precedes ∨
      m.compareOrder (m.fromDomNode (nodeAt t qa)) (m.fromDomNode (nodeAt t qb)) =
        some DocumentOrder.Follows) ∧
    (m.compareOrder (m.fromDomNode (nodeAt t qa)) (m.fromDomNode (nodeAt t qb)) =
        some DocumentOrder.Precedes ↔ T.ComesBefore qa qb) := by
  obtain ⟨c, x, y, ra, rb, hxy, rfl, rfl⟩ := exists_divergence qa qb hab hba
  rw [compareOrder_diverging m hro t T hT c x y ra rb hxy ha hb,
    DomTree.comesBefore_diverging c T x y ra rb hxy ha hb]
  by_cases hlt : x < y
  · simp [hlt]
  · simp [hlt]

/-- C1, amended, on `<a>x<b>y</b>z</a>`: the text `x` precedes the text `y` below `b`, and
the traversal visits `x` first. -/
theorem compareOrder_document_order_example :
    textDoc.compareOrder (textDoc.fromDomNode (nodeAt 0 [0, 0]))
        (textDoc.fromDomNode (nodeAt 0 [0, 1, 0])) = some DocumentOrder.Precedes ∧
    textTree.ComesBefore [0, 0] [0, 1, 0] :=
  have h := compareOrder_document_order textDoc rfl 0 textTree rfl [0, 0] [0, 1, 0] rfl rfl
    (by decide) (by decide)
  ⟨h.2.mpr (by decide), by decide⟩

/-- C2 fails on `<a>x<b>y</b>z</a>` with read-only mode off: the text `y` is a descendant of
the document node (three child steps down) and of the element `a` (two child steps down), and
`compareOrder` of either ancestor with `y` is `Is`, not `Precedes`. -/
theorem compareOrder_ancestor_is_not_precedes :
    textDoc.m_ReadOnly = false ∧
    textDoc.compareOrder (textDoc.fromDomNode (nodeAt 0 []))
        (textDoc.fromDomNode (nodeAt 0 [0, 1, 0])) = some DocumentOrder.Is ∧
    textDoc.compareOrder (textDoc.fromDomNode (nodeAt 0 [0]))
        (textDoc.fromDomNode (nodeAt 0 [0, 1, 0])) = some DocumentOrder.Is := by
  decide

/-! ## The loops end before their bound -/

/-- The ascent of `path` ends within `depth` rounds: a larger bound gives the same vector. -/
theorem pathLoop_fuel (extra : Nat) (n : QDomNode) (r : List QDomNode) :
    pathLoop (n.depth + extra) n r = pathLoop n.depth n r := by
  obtain ⟨d, hd⟩ : ∃ d, n.depth = d := ⟨_, rfl⟩
  induction d generalizing n r with
  | zero =>
    have hn : n.isNull = true := QDomNode.depth_eq_zero_iff.mp hd
    rw [hd]
    cases extra with
    | zero => rfl
    | succ e => simp [pathLoop, hn]
  | succ d ih =>
    have hn : n.isNull = false := by
      rw [← Bool.not_eq_true, ← QDomNode.depth_eq_zero_iff]
      omega
    have hp : n.parentNode.depth = d := by
      have := QDomNode.depth_parentNode hn
      omega
    have hrec := ih n.parentNode (r ++ [n]) hp
    rw [hp] at hrec
    rw [hd, Nat.add_right_comm, pathLoop, pathLoop, hn]
    simp only [Bool.false_eq_true, if_false]
    exact hrec

/-- The loop over the positions of the two paths ends within `s - i` rounds. -/
theorem compareOrderLoop_fuel (h : DomStore) (p1 p2 : List QDomNode) (s extra : Nat) :
    ∀ fuel i, s ≤ i + fuel →
      compareOrderLoop h p1 p2 s (fuel + extra) i = compareOrderLoop h p1 p2 s fuel i := by
  intro fuel
  induction fuel with
  | zero =>
    intro i hi
    cases extra with
    | zero => rfl
    | succ e =>
      have hge : ¬ i < s := by omega
      simp [compareOrderLoop, hge]
  | succ fuel ih =>
    intro i hi
    rw [Nat.add_right_comm, compareOrderLoop, compareOrderLoop, ih (i + 1) (by omega)]

theorem siblingScan_null (h : DomStore) (a b : QDomNode) (fuel : Nat) :
    siblingScan h a b fuel QDomNode.null = DocumentOrder.Is := by
  cases fuel with
  | zero => rfl
  | succ fuel => rfl

/-- The scan over the children of a node, started at its first child, ends within as many
rounds as the node has children. -/
theorem siblingScan_fuel (h : DomStore) (a b above : QDomNode) (extra : Nat) :
    siblingScan h a b (above.childCount h + extra) (above.firstChild h) =
      siblingScan h a b (above.childCount h) (above.firstChild h) := by
  obtain ⟨impl⟩ := above
  cases impl with
  | none => simp [QDomNode.firstChild, siblingScan_null]
  | some l =>
    obtain ⟨t, rp, ai⟩ := l
    cases ai with
    | some k => simp [QDomNode.firstChild, siblingScan_null]
    | none =>
      have hstep : ∀ fuel i,
          i + fuel = QDomNode.childCount h ⟨some ⟨t, rp, none⟩⟩ → 0 < fuel →
          siblingScan h a b (fuel + extra) ⟨some ⟨t, i :: rp, none⟩⟩ =
            siblingScan h a b fuel ⟨some ⟨t, i :: rp, none⟩⟩ := by
        intro fuel
        induction fuel with
        | zero =>
          intro i _ hpos
          omega
        | succ fuel ih =>
          intro i hi _
          rw [Nat.add_right_comm, siblingScan, siblingScan]
          have hnn : QDomNode.isNull ⟨some ⟨t, i :: rp, none⟩⟩ = false := rfl
          simp only [hnn, Bool.false_eq_true, if_false]
          by_cases hlast : i + 1 < QDomNode.childCount h ⟨some ⟨t, rp, none⟩⟩
          · have hnext : QDomNode.nextSibling h ⟨some ⟨t, i :: rp, none⟩⟩ =
                ⟨some ⟨t, (i + 1) :: rp, none⟩⟩ := by
              simp [QDomNode.nextSibling, hlast]
            rw [hnext, ih (i + 1) (by omega) (by omega)]
          · have hnext : QDomNode.nextSibling h ⟨some ⟨t, i :: rp, none⟩⟩ = QDomNode.null := by
              simp [QDomNode.nextSibling, hlast]
            rw [hnext, siblingScan_null, siblingScan_null]
      by_cases hpos : 0 < QDomNode.childCount h ⟨some ⟨t, rp, none⟩⟩
      · have hfirst : QDomNode.firstChild h ⟨some ⟨t, rp, none⟩⟩ =
            ⟨some ⟨t, 0 :: rp, none⟩⟩ := by
          simp [QDomNode.firstChild, hpos]
        rw [hfirst]
        exact hstep _ 0 (by omega) hpos
      · have hfirst : QDomNode.firstChild h ⟨some ⟨t, rp, none⟩⟩ = QDomNode.null := by
          simp [QDomNode.firstChild, hpos]
        rw [hfirst, siblingScan_null, siblingScan_null]

/-! ## Ancestor and descendant on the general path -/

/-- When the two paths agree on every position below `s`, the loop over them ends without a
decision. -/
theorem compareOrderLoop_agree (h : DomStore) (p1 p2 : List QDomNode) (s : Nat)
    (hagree : ∀ j, j < s → ∃ v, p1[j]? = some v ∧ p2[j]? = some v) :
    ∀ fuel i, 1 ≤ i → compareOrderLoop h p1 p2 s fuel i = some DocumentOrder.Is := by
  intro fuel
  induction fuel with
  | zero =>
    intro i _
    rfl
  | succ fuel ih =>
    intro i hi
    rw [compareOrderLoop]
    by_cases hlt : i < s
    · obtain ⟨v, hv1, hv2⟩ := hagree i hlt
      obtain ⟨w, hw1, _⟩ := hagree (i - 1) (by omega)
      rw [if_pos hlt]
      simp only [hv1, hv2, hw1, ne_eq, not_true_eq_false, if_false]
      exact ih (i + 1) (by omega)
    · rw [if_neg hlt]

/-- General path: for a node and any node below it (by one or more child steps) the answer is
`Is`, in either order of the arguments. -/
theorem compareOrder_ancestor (m : QDomNodeModel) (hro : m.m_ReadOnly = false) (t : Nat)
    (q r : List Nat) (hr : r ≠ []) :
    m.compareOrder (m.fromDomNode (nodeAt t q)) (m.fromDomNode (nodeAt t (q ++ r))) =
        some DocumentOrder.Is ∧
    m.compareOrder (m.fromDomNode (nodeAt t (q ++ r))) (m.fromDomNode (nodeAt t q)) =
        some DocumentOrder.Is := by
  have hne : nodeAt t q ≠ nodeAt t (q ++ r) := by
    rw [Ne, nodeAt_inj]
    intro hq
    exact hr (List.append_right_eq_self.mp hq.symm)
  have hlen1 := path_nodeAt_length m t q
  have hlen2 := path_nodeAt_length m t (q ++ r)
  rw [List.length_append] at hlen2
  have hpos : 0 < r.length := List.length_pos.mpr hr
  have htake1 : ∀ j, j ≤ q.length → (m.path (nodeAt t q))[j]? = some (nodeAt t (q.take j)) :=
    fun j hj => path_nodeAt_getElem m t q j hj
  have htake2 : ∀ j, j ≤ q.length →
      (m.path (nodeAt t (q ++ r)))[j]? = some (nodeAt t (q.take j)) := by
    intro j hj
    rw [path_nodeAt_getElem m t _ j (by simp; omega), List.take_append_of_le_length hj]
  have hidx : ∀ p, m.toDomNode (m.fromDomNode (nodeAt t p)) = nodeAt t p := fun _ => rfl
  have hs1 : (if (m.path (nodeAt t q)).length < (m.path (nodeAt t (q ++ r))).length
      then (m.path (nodeAt t q)).length else (m.path (nodeAt t (q ++ r))).length) =
        q.length + 1 := by
    rw [hlen1, hlen2, if_pos (by omega)]
  have hs2 : (if (m.path (nodeAt t (q ++ r))).length < (m.path (nodeAt t q)).length
      then (m.path (nodeAt t (q ++ r))).length else (m.path (nodeAt t q)).length) =
        q.length + 1 := by
    rw [hlen1, hlen2, if_neg (by omega)]
  constructor
  · unfold compareOrder
    simp only [hidx, hne, if_false, hro, Bool.false_eq_true, htake1 0 (Nat.zero_le _),
      htake2 0 (Nat.zero_le _), ne_eq, not_true_eq_false, hs1]
    exact compareOrderLoop_agree m.dom _ _ _
      (fun j hj => ⟨_, htake1 j (by omega), htake2 j (by omega)⟩) _ 1 (Nat.le_refl _)
  · unfold compareOrder
    simp only [hidx, hne.symm, if_false, hro, Bool.false_eq_true, htake1 0 (Nat.zero_le _),
      htake2 0 (Nat.zero_le _), ne_eq, not_true_eq_false, hs2]
    exact compareOrderLoop_agree m.dom _ _ _
      (fun j hj => ⟨_, htake2 j (by omega), htake1 j (by omega)⟩) _ 1 (Nat.le_refl _)

/-! ## Axis steps -/

theorem fromDomNode_eq_empty_iff (m : QDomNodeModel) (n : QDomNode) :
    m.fromDomNode n = QXmlNodeModelIndex.empty ↔ n.isNull = true := by
  unfold fromDomNode
  by_cases hn : n.isNull = true
  · simp [hn]
  · simp [hn, createIndex, QXmlNodeModelIndex.empty]

/-- C11: on each of the four axes `nextFromSimpleAxis` returns the index of the neighbour the
provider reports (parent, first child, previous sibling, next sibling); the index of a node is
the empty index exactly when the node is null, so the result is empty exactly when the step has
no target.  In particular the parent step from a root and the first-child step from a node
without children give the empty index. -/
theorem nextFromSimpleAxis_neighbour :
    (∀ (m : QDomNodeModel) (origin : QXmlNodeModelIndex),
      m.nextFromSimpleAxis SimpleAxis.Parent origin =
          m.fromDomNode (m.toDomNode origin).parentNode ∧
      m.nextFromSimpleAxis SimpleAxis.FirstChild origin =
          m.fromDomNode ((m.toDomNode origin).firstChild m.dom) ∧
      m.nextFromSimpleAxis SimpleAxis.PreviousSibling origin =
          m.fromDomNode ((m.toDomNode origin).previousSibling m.dom) ∧
      m.nextFromSimpleAxis SimpleAxis.NextSibling origin =
          m.fromDomNode ((m.toDomNode origin).nextSibling m.dom)) ∧
    (∀ (m : QDomNodeModel) (n : QDomNode),
      m.fromDomNode n = QXmlNodeModelIndex.empty ↔ n.isNull = true) ∧
    (∀ (m : QDomNodeModel) (t : Nat),
      m.nextFromSimpleAxis SimpleAxis.Parent (m.fromDomNode (nodeAt t [])) =
        QXmlNodeModelIndex.empty) ∧
    (∀ (m : QDomNodeModel) (n : QDomNode), n.childCount m.dom = 0 →
      m.nextFromSimpleAxis SimpleAxis.FirstChild (m.fromDomNode n) =
        QXmlNodeModelIndex.empty) := by
  refine ⟨fun m origin => ⟨rfl, rfl, rfl, rfl⟩, fromDomNode_eq_empty_iff, fun m t => rfl, ?_⟩
  intro m n hn
  have hnull : (m.toDomNode (m.fromDomNode n)).firstChild m.dom = QDomNode.null := by
    obtain ⟨impl⟩ := n
    cases impl with
    | none => rfl
    | some l =>
      obtain ⟨t, rp, ai⟩ := l
      cases ai with
      | some k => rfl
      | none =>
        have hidx : m.toDomNode (m.fromDomNode ⟨some ⟨t, rp, none⟩⟩) = ⟨some ⟨t, rp, none⟩⟩ := rfl
        rw [hidx]
        simp [QDomNode.firstChild, hn]
  show m.fromDomNode ((m.toDomNode (m.fromDomNode n)).firstChild m.dom) = _
  rw [hnull]
  rfl

/-- C11 on `<a xmlns:p="U1"><b xmlns:p="U2"><c/></b></a>`: the parent step from the document
node and the first-child step from the empty element `c` give the empty index, and the parent
step from `c` gives the index of `b`. -/
theorem nextFromSimpleAxis_neighbour_example :
    shadowDoc.nextFromSimpleAxis SimpleAxis.Parent (shadowDoc.fromDomNode (nodeAt 0 [])) =
      QXmlNodeModelIndex.empty ∧
    shadowDoc.nextFromSimpleAxis SimpleAxis.FirstChild
      (shadowDoc.fromDomNode (nodeAt 0 [0, 0, 0])) = QXmlNodeModelIndex.empty ∧
    shadowDoc.nextFromSimpleAxis SimpleAxis.Parent (shadowDoc.fromDomNode (nodeAt 0 [0, 0, 0])) =
      shadowDoc.fromDomNode (nodeAt 0 [0, 0]) :=
  ⟨nextFromSimpleAxis_neighbour.2.2.1 shadowDoc 0,
    nextFromSimpleAxis_neighbour.2.2.2 shadowDoc (nodeAt 0 [0, 0, 0]) (by decide),
    by decide⟩

/-! ## Attribute lists -/

/-- C12: for an element `e`, `attributes` returns one index per attribute of `e`, in the order
in which the provider lists the attributes: entry `i` decodes to the handle of attribute `i`,
whose record is the `i`-th attribute record of `e`; the result is empty when `e` has no
attribute. -/
theorem attributes_in_order (m : QDomNodeModel) (t : Nat) (rp : List Nat) (e : DomTree)
    (hnode : m.dom.subtree ⟨t, rp, none⟩ = some e) (helem : e.data.isElement = true) :
    (m.attributes (m.fromDomNode ⟨some ⟨t, rp, none⟩⟩)).length = e.attrs.length ∧
    (∀ i, i < e.attrs.length →
      ∃ ix, (m.attributes (m.fromDomNode ⟨some ⟨t, rp, none⟩⟩))[i]? = some ix ∧
        m.toDomNode ix = ⟨some ⟨t, rp, some i⟩⟩ ∧
        (m.toDomNode ix).record m.dom = e.attrs[i]?) ∧
    (e.attrs = [] → m.attributes (m.fromDomNode ⟨some ⟨t, rp, none⟩⟩) = []) := by
  have hidx : m.toDomNode (m.fromDomNode ⟨some ⟨t, rp, none⟩⟩) = ⟨some ⟨t, rp, none⟩⟩ := rfl
  have hel : QDomNode.isElement m.dom ⟨some ⟨t, rp, none⟩⟩ = true := by
    simp [QDomNode.isElement, QDomNode.record, hnode, helem]
  have hattrs : m.attributes (m.fromDomNode ⟨some ⟨t, rp, none⟩⟩) =
      (List.range e.attrs.length).map
        (fun i => m.fromDomNode (⟨some ⟨t, rp, some i⟩⟩ : QDomNode)) := by
    unfold attributes
    simp only [hidx, hel, if_true, QDomNode.attributes, hnode, helem, List.map_map]
    rfl
  refine ⟨by rw [hattrs]; simp, ?_, ?_⟩
  · intro i hi
    refine ⟨m.fromDomNode ⟨some ⟨t, rp, some i⟩⟩, ?_, rfl, ?_⟩
    · rw [hattrs, List.getElem?_map, List.getElem?_range hi]
      rfl
    · show QDomNode.record m.dom ⟨some ⟨t, rp, some i⟩⟩ = _
      simp [QDomNode.record, DomStore.subtree] at hnode ⊢
      simp [hnode]
  · intro hempty
    rw [hattrs, hempty]
    rfl

/-- C12 on `<e b="1" a="2"/>`: the result has two entries, the first decodes to the attribute
named `b` and the second to the attribute named `a`. -/
theorem attributes_in_order_example :
    (attrOrderDoc.attributes (attrOrderDoc.fromDomNode (nodeAt 0 [0]))).length = 2 ∧
    (attrOrderDoc.attributes (attrOrderDoc.fromDomNode (nodeAt 0 [0]))).map
      (fun ix => (attrOrderDoc.toDomNode ix).nodeName attrOrderDoc.dom) = [['b'], ['a']] :=
  ⟨(attributes_in_order attrOrderDoc 0 [0]
      (.mk (NodeData.element ['e'])
        [NodeData.attribute ['b'] ['1'], NodeData.attribute ['a'] ['2']] [])
      rfl (by decide)).1, by decide⟩

/-! ## Node kinds -/

/-- C13: a node that answers yes to exactly one of the six kind predicates gets the kind of
that predicate, and a node that answers no to all six gets a value that is none of the six
kinds (nor the kind `Namespace`, whose value is 16). -/
theorem kind_exclusive_exhaustive (m : QDomNodeModel) (ni : QXmlNodeModelIndex) :
    (((m.toDomNode ni).kindAnswers m.dom).count true = 1 →
      ((m.toDomNode ni).isAttr m.dom = true → m.kind ni = NodeKind.Attribute) ∧
      ((m.toDomNode ni).isText m.dom = true → m.kind ni = NodeKind.Text) ∧
      ((m.toDomNode ni).isComment m.dom = true → m.kind ni = NodeKind.Comment) ∧
      ((m.toDomNode ni).isDocument m.dom = true → m.kind ni = NodeKind.Document) ∧
      ((m.toDomNode ni).isElement m.dom = true → m.kind ni = NodeKind.Element) ∧
      ((m.toDomNode ni).isProcessingInstruction m.dom = true →
        m.kind ni = NodeKind.ProcessingInstruction)) ∧
    (((m.toDomNode ni).kindAnswers m.dom).count true = 0 →
      m.kind ni ≠ NodeKind.Attribute ∧ m.kind ni ≠ NodeKind.Text ∧
      m.kind ni ≠ NodeKind.Comment ∧ m.kind ni ≠ NodeKind.Document ∧
      m.kind ni ≠ NodeKind.Element ∧ m.kind ni ≠ NodeKind.ProcessingInstruction ∧
      m.kind ni ≠ 16) := by
  simp only [kind, QDomNode.kindAnswers]
  generalize (m.toDomNode ni).isAttr m.dom = b1
  generalize (m.toDomNode ni).isText m.dom = b2
  generalize (m.toDomNode ni).isComment m.dom = b3
  generalize (m.toDomNode ni).isDocument m.dom = b4
  generalize (m.toDomNode ni).isElement m.dom = b5
  generalize (m.toDomNode ni).isProcessingInstruction m.dom = b6
  revert b1 b2 b3 b4 b5 b6
  decide

/-- C13 on `<a>x<b>y</b>z</a>`: the element `a` gets the kind `Element`, the text `x` the
kind `Text`, the document node the kind `Document`, and the null node, which answers no to
all six predicates, gets the value 0. -/
theorem kind_exclusive_exhaustive_example :
    textDoc.kind (textDoc.fromDomNode (nodeAt 0 [0])) = NodeKind.Element ∧
    textDoc.kind (textDoc.fromDomNode (nodeAt 0 [0, 0])) = NodeKind.Text ∧
    textDoc.kind (textDoc.fromDomNode (nodeAt 0 [])) = NodeKind.Document ∧
    textDoc.kind (textDoc.fromDomNode QDomNode.null) = 0 :=
  ⟨(kind_exclusive_exhaustive textDoc (textDoc.fromDomNode (nodeAt 0 [0]))).1
      (by decide) |>.2.2.2.2.1 (by decide),
    by decide, by decide, by decide⟩

/-! ## Different roots -/

/-- The path of a node that is not null starts with some node, its root. -/
theorem path_head_of_not_null (m : QDomNodeModel) (n : QDomNode) (hn : n.isNull = false) :
    ∃ r, (m.path n)[0]? = some r := by
  rw [path_of_not_null m n hn]
  cases hp : m.path n.parentNode with
  | nil => exact ⟨n, rfl⟩
  | cons r rest => exact ⟨r, by simp⟩

/-- C14: with read-only mode off, two nodes that are not null and whose paths start at
different roots compare as `Is`. -/
theorem compareOrder_different_roots (m : QDomNodeModel) (a b : QDomNode)
    (hro : m.m_ReadOnly = false) (ha : a.isNull = false) (hb : b.isNull = false)
    (hroots : (m.path a)[0]? ≠ (m.path b)[0]?) :
    m.compareOrder (m.fromDomNode a) (m.fromDomNode b) = some DocumentOrder.Is := by
  obtain ⟨r1, h1⟩ := path_head_of_not_null m a ha
  obtain ⟨r2, h2⟩ := path_head_of_not_null m b hb
  have hne : r1 ≠ r2 := by
    intro h
    apply hroots
    rw [h1, h2, h]
  have hida : m.toDomNode (m.fromDomNode a) = a := by
    unfold fromDomNode
    rw [ha]
    rfl
  have hidb : m.toDomNode (m.fromDomNode b) = b := by
    unfold fromDomNode
    rw [hb]
    rfl
  unfold compareOrder
  simp only [hida, hidb, hro, h1, h2, hne, Bool.false_eq_true, if_false, ne_eq, not_false_eq_true,
    if_true]
  split <;> rfl

/-- C14 on a store with the document `<a>x<b>y</b>z</a>` and a detached element `d`: the
element `a` and the element `d` are different nodes under different roots, and the answer is
`Is` in both argument orders. -/
theorem compareOrder_different_roots_example :
    twoTreeDoc.compareOrder (twoTreeDoc.fromDomNode (nodeAt 0 [0]))
        (twoTreeDoc.fromDomNode (nodeAt 1 [0])) = some DocumentOrder.Is ∧
    twoTreeDoc.compareOrder (twoTreeDoc.fromDomNode (nodeAt 1 [0]))
        (twoTreeDoc.fromDomNode (nodeAt 0 [0])) = some DocumentOrder.Is :=
  ⟨compareOrder_different_roots twoTreeDoc (nodeAt 0 [0]) (nodeAt 1 [0]) rfl rfl rfl (by decide),
    by decide⟩

/-! ## Read-only mode -/

/-- C15: with read-only mode on, two different nodes are ordered by their recorded positions
alone: `Precedes` when the pair (line, column) of the first is the smaller one in
lexicographic order, `Follows` when it is the larger one, `Is` when the pairs are equal.
Nothing but the four numbers enters the answer. -/
theorem compareOrder_read_only (m : QDomNodeModel) (ni1 ni2 : QXmlNodeModelIndex)
    (hro : m.m_ReadOnly = true) (hne : m.toDomNode ni1 ≠ m.toDomNode ni2) :
    m.compareOrder ni1 ni2 =
      some (if PositionBefore m.dom (m.toDomNode ni1) (m.toDomNode ni2) then
          DocumentOrder.Precedes
        else if PositionBefore m.dom (m.toDomNode ni2) (m.toDomNode ni1) then
          DocumentOrder.Follows
        else DocumentOrder.Is) ∧
    ((m.toDomNode ni1).lineNumber m.dom = (m.toDomNode ni2).lineNumber m.dom →
      (m.toDomNode ni1).columnNumber m.dom = (m.toDomNode ni2).columnNumber m.dom →
      m.compareOrder ni1 ni2 = some DocumentOrder.Is) := by
  have hcmp : m.compareOrder ni1 ni2 =
      if (m.toDomNode ni1).lineNumber m.dom < (m.toDomNode ni2).lineNumber m.dom then
        some DocumentOrder.Precedes
      else if (m.toDomNode ni1).lineNumber m.dom > (m.toDomNode ni2).lineNumber m.dom then
        some DocumentOrder.Follows
      else if (m.toDomNode ni1).columnNumber m.dom < (m.toDomNode ni2).columnNumber m.dom then
        some DocumentOrder.Precedes
      else if (m.toDomNode ni1).columnNumber m.dom > (m.toDomNode ni2).columnNumber m.dom then
        some DocumentOrder.Follows
      else some DocumentOrder.Is := by
    unfold compareOrder
    simp only [hne, hro, if_true, if_false]
  rw [hcmp]
  constructor
  · by_cases h1 : (m.toDomNode ni1).lineNumber m.dom < (m.toDomNode ni2).lineNumber m.dom
    · have hb : PositionBefore m.dom (m.toDomNode ni1) (m.toDomNode ni2) := Or.inl h1
      rw [if_pos h1, if_pos hb]
    · rw [if_neg h1]
      by_cases h2 : (m.toDomNode ni1).lineNumber m.dom > (m.toDomNode ni2).lineNumber m.dom
      · have hnb : ¬ PositionBefore m.dom (m.toDomNode ni1) (m.toDomNode ni2) := by
          rintro (h | ⟨h, _⟩)
          · exact h1 h
          · omega
        have hb : PositionBefore m.dom (m.toDomNode ni2) (m.toDomNode ni1) := Or.inl h2
        rw [if_pos h2, if_neg hnb, if_pos hb]
      · rw [if_neg h2]
        have h3 : (m.toDomNode ni1).lineNumber m.dom = (m.toDomNode ni2).lineNumber m.dom := by
          omega
        by_cases h4 : (m.toDomNode ni1).columnNumber m.dom <
            (m.toDomNode ni2).columnNumber m.dom
        · have hb : PositionBefore m.dom (m.toDomNode ni1) (m.toDomNode ni2) :=
            Or.inr ⟨h3, h4⟩
          rw [if_pos h4, if_pos hb]
        · rw [if_neg h4]
          have hnb : ¬ PositionBefore m.dom (m.toDomNode ni1) (m.toDomNode ni2) := by
            rintro (h | ⟨_, h⟩)
            · exact h1 h
            · exact h4 h
          rw [if_neg hnb]
          by_cases h5 : (m.toDomNode ni1).columnNumber m.dom >
              (m.toDomNode ni2).columnNumber m.dom
          · have hb : PositionBefore m.dom (m.toDomNode ni2) (m.toDomNode ni1) :=
              Or.inr ⟨h3.symm, h5⟩
            rw [if_pos h5, if_pos hb]
          · have hnb2 : ¬ PositionBefore m.dom (m.toDomNode ni2) (m.toDomNode ni1) := by
              rintro (h | ⟨_, h⟩)
              · exact h2 h
              · exact h5 h
            rw [if_neg h5, if_neg hnb2]
  · intro hl hc
    rw [if_neg (by omega), if_neg (by omega), if_neg (by omega), if_neg (by omega)]

/-- C15 on a document with recorded positions: `a` (line 1) precedes `b` (line 2); `b` and
`c` stand on the same line and the column decides; and in `<e b="1" a="2"/>` the two
attributes, which carry the same position, compare as `Is`. -/
theorem compareOrder_read_only_example :
    positionedDoc.compareOrder (positionedDoc.fromDomNode (nodeAt 0 [0]))
        (positionedDoc.fromDomNode (nodeAt 0 [0, 0])) = some DocumentOrder.Precedes ∧
    positionedDoc.compareOrder (positionedDoc.fromDomNode (nodeAt 0 [0, 1]))
        (positionedDoc.fromDomNode (nodeAt 0 [0, 0])) = some DocumentOrder.Follows ∧
    readOnlyAttrDoc.compareOrder (readOnlyAttrDoc.fromDomNode (attrAt 0 [0] 0))
        (readOnlyAttrDoc.fromDomNode (attrAt 0 [0] 1)) = some DocumentOrder.Is :=
  ⟨(compareOrder_read_only positionedDoc (positionedDoc.fromDomNode (nodeAt 0 [0]))
      (positionedDoc.fromDomNode (nodeAt 0 [0, 0])) rfl (by decide)).1.trans (by decide),
    by decide,
    (compareOrder_read_only readOnlyAttrDoc (readOnlyAttrDoc.fromDomNode (attrAt 0 [0] 0))
      (readOnlyAttrDoc.fromDomNode (attrAt 0 [0] 1)) rfl (by decide)).2 (by decide) (by decide)⟩

/-! ## Diverging paths -/

theorem childNodes_nodeAt (h : DomStore) (t : Nat) (c : List Nat) (x : Nat)
    (hx : x < (nodeAt t c).childCount h) :
    ((nodeAt t c).childNodes h)[x]? = some (nodeAt t (c ++ [x])) := by
  have hx2 : x < QDomNode.childCount h ⟨some ⟨t, c.reverse, none⟩⟩ := hx
  simp [nodeAt, QDomNode.childNodes, List.getElem?_range hx2]

theorem DomTree.descend_child_of_descend (T : DomTree) (c : List Nat) (x : Nat) (ra : List Nat)
    (ha : (T.descend (c ++ x :: ra)).isSome = true) :
    (T.descend (c ++ [x])).isSome = true := by
  have hsplit : c ++ x :: ra = (c ++ [x]) ++ ra := by simp
  rw [hsplit, DomTree.descend_append] at ha
  cases hC : T.descend (c ++ [x]) with
  | none => simp [hC] at ha
  | some C => rfl

theorem path_nodeAt_getElem_append (m : QDomNodeModel) (t : Nat) (c : List Nat) (x : Nat)
    (ra : List Nat) :
    (m.path (nodeAt t (c ++ x :: ra)))[c.length]? = some (nodeAt t c) ∧
    (m.path (nodeAt t (c ++ x :: ra)))[c.length + 1]? = some (nodeAt t (c ++ [x])) := by
  constructor
  · rw [path_nodeAt_getElem m t _ _ (by simp), List.take_append_of_le_length (Nat.le_refl _),
      List.take_length]
  · rw [path_nodeAt_getElem m t _ _ (by simp)]
    simp [List.take_append_eq_append_take, List.take_of_length_le (Nat.le_succ c.length)]

/-- C17: general path.  Let the paths of `a` and `b` agree up to a common ancestor (the node
reached by `c`) and hold there its children number `x` and number `y`, `x ≠ y`.  Then
`compareOrder(a, b)` is `Precedes` when `x` comes before `y` in the child list of the common
ancestor and `Follows` when `y` comes before `x`; in particular, of two siblings the earlier
one precedes the later one. -/
theorem compareOrder_diverging_children (m : QDomNodeModel) (hro : m.m_ReadOnly = false)
    (t : Nat) (T : DomTree) (hT : m.dom[t]? = some T) (c : List Nat) (x y : Nat)
    (ra rb : List Nat) (hxy : x ≠ y) (ha : (T.descend (c ++ x :: ra)).isSome = true)
    (hb : (T.descend (c ++ y :: rb)).isSome = true) :
    ((m.path (nodeAt t (c ++ x :: ra)))[c.length]? = some (nodeAt t c) ∧
      (m.path (nodeAt t (c ++ y :: rb)))[c.length]? = some (nodeAt t c) ∧
      (m.path (nodeAt t (c ++ x :: ra)))[c.length + 1]? = some (nodeAt t (c ++ [x])) ∧
      (m.path (nodeAt t (c ++ y :: rb)))[c.length + 1]? = some (nodeAt t (c ++ [y])) ∧
      ((nodeAt t c).childNodes m.dom)[x]? = some (nodeAt t (c ++ [x])) ∧
      ((nodeAt t c).childNodes m.dom)[y]? = some (nodeAt t (c ++ [y]))) ∧
    (x < y → m.compareOrder (m.fromDomNode (nodeAt t (c ++ x :: ra)))
      (m.fromDomNode (nodeAt t (c ++ y :: rb))) = some DocumentOrder.Precedes) ∧
    (y < x → m.compareOrder (m.fromDomNode (nodeAt t (c ++ x :: ra)))
      (m.fromDomNode (nodeAt t (c ++ y :: rb))) = some DocumentOrder.Follows) ∧
    (x < y → m.compareOrder (m.fromDomNode (nodeAt t (c ++ [x])))
      (m.fromDomNode (nodeAt t (c ++ [y]))) = some DocumentOrder.Precedes) := by
  obtain ⟨C, hC, hx, hy⟩ : ∃ C, T.descend c = some C ∧ x < C.children.length ∧
      y < C.children.length := by
    rw [DomTree.descend_append] at ha hb
    cases hC : T.descend c with
    | none => simp [hC] at ha
    | some C =>
      rw [hC] at ha hb
      simp only [Option.some_bind] at ha hb
      obtain ⟨D, hD⟩ := Option.isSome_iff_exists.mp ha
      obtain ⟨E, hE⟩ := Option.isSome_iff_exists.mp hb
      exact ⟨C, rfl, DomTree.lt_of_descend_cons hD, DomTree.lt_of_descend_cons hE⟩
  have hcount := childCount_nodeAt m.dom t c T C hT hC
  have hmain := compareOrder_diverging m hro t T hT c x y ra rb hxy ha hb
  have hsib := compareOrder_diverging m hro t T hT c x y [] [] hxy
    (DomTree.descend_child_of_descend T c x ra ha) (DomTree.descend_child_of_descend T c y rb hb)
  refine ⟨⟨(path_nodeAt_getElem_append m t c x ra).1, (path_nodeAt_getElem_append m t c y rb).1,
    (path_nodeAt_getElem_append m t c x ra).2, (path_nodeAt_getElem_append m t c y rb).2,
    childNodes_nodeAt m.dom t c x (by rw [hcount]; exact hx),
    childNodes_nodeAt m.dom t c y (by rw [hcount]; exact hy)⟩, ?_, ?_, ?_⟩
  · intro hlt
    rw [hmain, if_pos hlt]
  · intro hlt
    rw [hmain, if_neg (by omega)]
  · intro hlt
    rw [hsib, if_pos hlt]

/-- C17 on `<a>x<b>y</b>z</a>`: the text `y` below `b` and the text `z` part at the children
number 1 and number 2 of `a`, so `y` precedes `z`, and `z` follows `y`. -/
theorem compareOrder_diverging_children_example :
    textDoc.compareOrder (textDoc.fromDomNode (nodeAt 0 [0, 1, 0]))
        (textDoc.fromDomNode (nodeAt 0 [0, 2])) = some DocumentOrder.Precedes ∧
    textDoc.compareOrder (textDoc.fromDomNode (nodeAt 0 [0, 2]))
        (textDoc.fromDomNode (nodeAt 0 [0, 1, 0])) = some DocumentOrder.Follows :=
  ⟨(compareOrder_diverging_children textDoc rfl 0 textTree rfl [0] 1 2 [0] [] (by decide) rfl
      rfl).2.1 (by decide),
    (compareOrder_diverging_children textDoc rfl 0 textTree rfl [0] 2 1 [] [0] (by decide) rfl
      rfl).2.2.1 (by decide)⟩

/-! ## Exchanging the arguments -/

theorem siblingScan_flip (h : DomStore) (a b : QDomNode) (hab : a ≠ b) :
    ∀ fuel c, siblingScan h b a fuel c = (siblingScan h a b fuel c).flip := by
  intro fuel
  induction fuel with
  | zero =>
    intro c
    rfl
  | succ fuel ih =>
    intro c
    rw [siblingScan, siblingScan]
    by_cases hn : c.isNull = true
    · rw [if_pos hn, if_pos hn]
      rfl
    · rw [if_neg hn, if_neg hn]
      by_cases hca : c = a
      · subst hca
        simp [hab, DocumentOrder.flip]
      · by_cases hcb : c = b
        · subst hcb
          simp [hca, DocumentOrder.flip]
        · simp only [hca, hcb, if_false]
          exact ih _

theorem compareOrderLoop_flip (h : DomStore) (p1 p2 : List QDomNode) (s : Nat) :
    ∀ fuel i, 1 ≤ i → p1[i - 1]? = p2[i - 1]? →
      compareOrderLoop h p2 p1 s fuel i =
        (compareOrderLoop h p1 p2 s fuel i).map DocumentOrder.flip := by
  intro fuel
  induction fuel with
  | zero =>
    intro i _ _
    rfl
  | succ fuel ih =>
    intro i hi hprev
    rw [compareOrderLoop, compareOrderLoop]
    by_cases hlt : i < s
    · rw [if_pos hlt, if_pos hlt, ← hprev]
      cases h1 : p1[i]? with
      | none => cases p2[i]? <;> rfl
      | some a =>
        cases h2 : p2[i]? with
        | none => rfl
        | some b =>
          cases h3 : p1[i - 1]? with
          | none => rfl
          | some above =>
            simp only
            by_cases hab : a = b
            · subst hab
              simp only [ne_eq, not_true_eq_false, if_false]
              exact ih (i + 1) (by omega) (by simp [h1, h2])
            · have hba : ¬ b = a := fun hc => hab hc.symm
              simp only [ne_eq, hab, hba, not_false_eq_true, if_true, Option.map_some']
              rw [siblingScan_flip h a b hab]
    · rw [if_neg hlt, if_neg hlt]
      rfl

/-- Exchanging the two arguments of `compareOrder` exchanges `Precedes` and `Follows` and
keeps `Is`; an undefined answer stays undefined. -/
theorem compareOrder_flip (m : QDomNodeModel) (ni1 ni2 : QXmlNodeModelIndex) :
    m.compareOrder ni2 ni1 = (m.compareOrder ni1 ni2).map DocumentOrder.flip := by
  unfold compareOrder
  by_cases heq : m.toDomNode ni1 = m.toDomNode ni2
  · simp only [heq, if_true]
    rfl
  · have heq2 : ¬ m.toDomNode ni2 = m.toDomNode ni1 := fun hc => heq hc.symm
    simp only [heq, heq2, if_false]
    by_cases hro : m.m_ReadOnly = true
    · simp only [hro, if_true]
      by_cases h1 : (m.toDomNode ni1).lineNumber m.dom < (m.toDomNode ni2).lineNumber m.dom
      · have h2 : ¬ (m.toDomNode ni2).lineNumber m.dom < (m.toDomNode ni1).lineNumber m.dom := by
          omega
        simp only [h1, h2, gt_iff_lt, if_true, if_false]
        rfl
      · by_cases h2 : (m.toDomNode ni2).lineNumber m.dom < (m.toDomNode ni1).lineNumber m.dom
        · simp only [h1, h2, gt_iff_lt, if_true, if_false]
          rfl
        · simp only [h1, h2, gt_iff_lt, if_false]
          by_cases h3 : (m.toDomNode ni1).columnNumber m.dom <
              (m.toDomNode ni2).columnNumber m.dom
          · have h4 : ¬ (m.toDomNode ni2).columnNumber m.dom <
                (m.toDomNode ni1).columnNumber m.dom := by omega
            simp only [h3, h4, if_true, if_false]
            rfl
          · by_cases h4 : (m.toDomNode ni2).columnNumber m.dom <
                (m.toDomNode ni1).columnNumber m.dom
            · simp only [h3, h4, if_true, if_false]
              rfl
            · simp only [h3, h4, if_false]
              rfl
    · simp only [hro, if_false]
      cases h1 : (m.path (m.toDomNode ni1))[0]? with
      | none => cases (m.path (m.toDomNode ni2))[0]? <;> rfl
      | some r1 =>
        cases h2 : (m.path (m.toDomNode ni2))[0]? with
        | none => rfl
        | some r2 =>
          simp only
          by_cases hr : r1 = r2
          · subst hr
            simp only [ne_eq, not_true_eq_false, if_false]
            have hs : (if (m.path (m.toDomNode ni2)).length < (m.path (m.toDomNode ni1)).length
                then (m.path (m.toDomNode ni2)).length
                else (m.path (m.toDomNode ni1)).length) =
                (if (m.path (m.toDomNode ni1)).length < (m.path (m.toDomNode ni2)).length
                then (m.path (m.toDomNode ni1)).length
                else (m.path (m.toDomNode ni2)).length) := by
              split <;> split <;> omega
            rw [hs]
            exact compareOrderLoop_flip m.dom _ _ _ _ 1 (Nat.le_refl _) (by simp [h1, h2])
          · have hr2 : ¬ r2 = r1 := fun hc => hr hc.symm
            simp only [ne_eq, hr, hr2, not_false_eq_true, if_true]
            rfl

theorem compareOrderLoop_isSome (h : DomStore) (p1 p2 : List QDomNode) (s : Nat)
    (h1 : s ≤ p1.length) (h2 : s ≤ p2.length) :
    ∀ fuel i, 1 ≤ i → ∃ o, compareOrderLoop h p1 p2 s fuel i = some o := by
  intro fuel
  induction fuel with
  | zero =>
    intro i _
    exact ⟨_, rfl⟩
  | succ fuel ih =>
    intro i hi
    rw [compareOrderLoop]
    by_cases hlt : i < s
    · rw [if_pos hlt, List.getElem?_eq_getElem (show i < p1.length by omega),
        List.getElem?_eq_getElem (show i < p2.length by omega),
        List.getElem?_eq_getElem (show i - 1 < p1.length by omega)]
      simp only
      split
      · exact ⟨_, rfl⟩
      · exact ih (i + 1) (by omega)
    · rw [if_neg hlt]
      exact ⟨_, rfl⟩

/-- For two nodes that are not null `compareOrder` has an answer. -/
theorem compareOrder_defined (m : QDomNodeModel) (ni1 ni2 : QXmlNodeModelIndex)
    (hn1 : (m.toDomNode ni1).isNull = false) (hn2 : (m.toDomNode ni2).isNull = false) :
    ∃ o, m.compareOrder ni1 ni2 = some o := by
  obtain ⟨r1, h1⟩ := path_head_of_not_null m _ hn1
  obtain ⟨r2, h2⟩ := path_head_of_not_null m _ hn2
  unfold compareOrder
  simp only [h1, h2]
  split
  · exact ⟨_, rfl⟩
  · split
    · split
      · exact ⟨_, rfl⟩
      · split
        · exact ⟨_, rfl⟩
        · split
          · exact ⟨_, rfl⟩
          · split <;> exact ⟨_, rfl⟩
    · split
      · exact ⟨_, rfl⟩
      · exact compareOrderLoop_isSome m.dom _ _ _ (by split <;> omega) (by split <;> omega) _ 1
          (Nat.le_refl _)

/-- C18: in both modes, `compareOrder(a, b)` is `Precedes` exactly when `compareOrder(b, a)`
is `Follows` (and the other way round), and `compareOrder(a, b)` is `Is` exactly when
`compareOrder(b, a)` is `Is`; for nodes that are not null both answers exist. -/
theorem compareOrder_antisymmetric (m : QDomNodeModel) (ni1 ni2 : QXmlNodeModelIndex) :
    (m.compareOrder ni1 ni2 = some DocumentOrder.Precedes ↔
      m.compareOrder ni2 ni1 = some DocumentOrder.Follows) ∧
    (m.compareOrder ni1 ni2 = some DocumentOrder.Follows ↔
      m.compareOrder ni2 ni1 = some DocumentOrder.Precedes) ∧
    (m.compareOrder ni1 ni2 = some DocumentOrder.Is ↔
      m.compareOrder ni2 ni1 = some DocumentOrder.Is) ∧
    ((m.toDomNode ni1).isNull = false → (m.toDomNode ni2).isNull = false →
      (∃ o, m.compareOrder ni1 ni2 = some o) ∧ (∃ o, m.compareOrder ni2 ni1 = some o)) := by
  have hflip := compareOrder_flip m ni1 ni2
  refine ⟨?_, ?_, ?_, fun h1 h2 => ⟨compareOrder_defined m ni1 ni2 h1 h2,
    compareOrder_defined m ni2 ni1 h2 h1⟩⟩
  · rw [hflip]
    cases m.compareOrder ni1 ni2 with
    | none => simp
    | some o => cases o <;> simp [DocumentOrder.flip]
  · rw [hflip]
    cases m.compareOrder ni1 ni2 with
    | none => simp
    | some o => cases o <;> simp [DocumentOrder.flip]
  · rw [hflip]
    cases m.compareOrder ni1 ni2 with
    | none => simp
    | some o => cases o <;> simp [DocumentOrder.flip]

/-- C18 on `<a>x<b>y</b>z</a>` (read-only mode off) and on a document with recorded positions
(read-only mode on): `y` precedes `z` and `z` follows `y`; `b` precedes `c` and `c` follows
`b`. -/
theorem compareOrder_antisymmetric_example :
    (textDoc.compareOrder (textDoc.fromDomNode (nodeAt 0 [0, 1, 0]))
        (textDoc.fromDomNode (nodeAt 0 [0, 2])) = some DocumentOrder.Precedes ∧
      textDoc.compareOrder (textDoc.fromDomNode (nodeAt 0 [0, 2]))
        (textDoc.fromDomNode (nodeAt 0 [0, 1, 0])) = some DocumentOrder.Follows) ∧
    (positionedDoc.compareOrder (positionedDoc.fromDomNode (nodeAt 0 [0, 0]))
        (positionedDoc.fromDomNode (nodeAt 0 [0, 1])) = some DocumentOrder.Precedes ∧
      positionedDoc.compareOrder (positionedDoc.fromDomNode (nodeAt 0 [0, 1]))
        (positionedDoc.fromDomNode (nodeAt 0 [0, 0])) = some DocumentOrder.Follows) :=
  ⟨⟨by decide, (compareOrder_antisymmetric textDoc (textDoc.fromDomNode (nodeAt 0 [0, 1, 0]))
      (textDoc.fromDomNode (nodeAt 0 [0, 2]))).1.mp (by decide)⟩,
    ⟨by decide, (compareOrder_antisymmetric positionedDoc
      (positionedDoc.fromDomNode (nodeAt 0 [0, 0]))
      (positionedDoc.fromDomNode (nodeAt 0 [0, 1]))).1.mp (by decide)⟩⟩

/-! ## Transitivity of `Precedes` -/

theorem siblingScan_trans (h : DomStore) (x y z : QDomNode) :
    ∀ fuel c, siblingScan h x y fuel c = DocumentOrder.Precedes →
      siblingScan h y z fuel c = DocumentOrder.Precedes →
      siblingScan h x z fuel c = DocumentOrder.Precedes := by
  intro fuel
  induction fuel with
  | zero =>
    intro c h1 _
    simp [siblingScan] at h1
  | succ fuel ih =>
    intro c h1 h2
    rw [siblingScan] at h1 h2 ⊢
    by_cases hn : c.isNull = true
    · rw [if_pos hn] at h1
      cases h1
    · rw [if_neg hn] at h1 h2 ⊢
      by_cases hcx : c = x
      · rw [if_pos hcx]
      · rw [if_neg hcx] at h1 ⊢
        by_cases hcy : c = y
        · rw [if_pos hcy] at h1
          cases h1
        · rw [if_neg hcy] at h1 h2
          by_cases hcz : c = z
          · rw [if_pos hcz] at h2
            cases h2
          · rw [if_neg hcz] at h2 ⊢
            exact ih _ h1 h2

theorem siblingScan_precedes_ne (h : DomStore) (x y z : QDomNode) (hxy : x ≠ y) (fuel : Nat)
    (c : QDomNode) (h1 : siblingScan h x y fuel c = DocumentOrder.Precedes)
    (h2 : siblingScan h y z fuel c = DocumentOrder.Precedes) : x ≠ z := by
  intro hxz
  subst hxz
  rw [siblingScan_flip h x y hxy, h1] at h2
  cases h2

/-- The loop over the paths, run on three paths at once: when it answers `Precedes` for the
first and the second and for the second and the third, it does so for the first and the
third. -/
theorem compareOrderLoop_trans (h : DomStore) (pa pb pc : List QDomNode) (sab sbc sac : Nat)
    (hab1 : sab ≤ pa.length) (hab2 : sab ≤ pb.length)
    (hbc2 : sbc ≤ pc.length) (hac : ∀ i, i < pa.length → i < pc.length → i < sac) :
    ∀ fuel i, 1 ≤ i → pa[i - 1]? = pb[i - 1]? → pb[i - 1]? = pc[i - 1]? →
      compareOrderLoop h pa pb sab fuel i = some DocumentOrder.Precedes →
      compareOrderLoop h pb pc sbc fuel i = some DocumentOrder.Precedes →
      compareOrderLoop h pa pc sac fuel i = some DocumentOrder.Precedes := by
  intro fuel
  induction fuel with
  | zero =>
    intro i _ _ _ h1 _
    simp [compareOrderLoop] at h1
  | succ fuel ih =>
    intro i hi hp1 hp2 h1 h2
    rw [compareOrderLoop] at h1 h2 ⊢
    have hi1 : i < sab := by
      by_contra hc
      rw [if_neg hc] at h1
      cases h1
    have hi2 : i < sbc := by
      by_contra hc
      rw [if_neg hc] at h2
      cases h2
    have hi3 : i < sac := hac i (by omega) (by omega)
    rw [if_pos hi1] at h1
    rw [if_pos hi2] at h2
    rw [if_pos hi3]
    have hla : i < pa.length := by omega
    have hlb : i < pb.length := by omega
    have hlc : i < pc.length := by omega
    have hlu : i - 1 < pa.length := by omega
    obtain ⟨A, ha⟩ : ∃ A, pa[i]? = some A := ⟨pa[i], List.getElem?_eq_getElem hla⟩
    obtain ⟨B, hb⟩ : ∃ B, pb[i]? = some B := ⟨pb[i], List.getElem?_eq_getElem hlb⟩
    obtain ⟨C, hc⟩ : ∃ C, pc[i]? = some C := ⟨pc[i], List.getElem?_eq_getElem hlc⟩
    obtain ⟨above, hu⟩ : ∃ u, pa[i - 1]? = some u := ⟨pa[i - 1], List.getElem?_eq_getElem hlu⟩
    have hv : pb[i - 1]? = some above := by rw [← hp1, hu]
    rw [ha, hb, hu] at h1
    rw [hb, hc, hv] at h2
    rw [ha, hc, hu]
    simp only at h1 h2 ⊢
    by_cases hAB : A = B
    · subst hAB
      simp only [ne_eq, not_true_eq_false, if_false] at h1
      by_cases hBC : A = C
      · subst hBC
        simp only [ne_eq, not_true_eq_false, if_false] at h2 ⊢
        exact ih (i + 1) (by omega) (by simp [ha, hb]) (by simp [hb, hc]) h1 h2
      · simp only [ne_eq, hBC, not_false_eq_true, if_true] at h2 ⊢
        exact h2
    · simp only [ne_eq, hAB, not_false_eq_true, if_true, Option.some.injEq] at h1
      by_cases hBC : B = C
      · subst hBC
        simp only [ne_eq, hAB, not_false_eq_true, if_true, Option.some.injEq]
        exact h1
      · simp only [ne_eq, hBC, not_false_eq_true, if_true, Option.some.injEq] at h2
        have hAC : A ≠ C := siblingScan_precedes_ne h A B C hAB _ _ h1 h2
        simp only [ne_eq, hAC, not_false_eq_true, if_true, Option.some.injEq]
        exact siblingScan_trans h A B C _ _ h1 h2

theorem compareOrder_congr (m : QDomNodeModel) (ni1 ni2 nj1 nj2 : QXmlNodeModelIndex)
    (h1 : m.toDomNode ni1 = m.toDomNode nj1) (h2 : m.toDomNode ni2 = m.toDomNode nj2) :
    m.compareOrder ni1 ni2 = m.compareOrder nj1 nj2 := by
  unfold compareOrder
  simp only [h1, h2]

/-- A node never precedes itself, so the first and the third node of a chain of two
`Precedes` answers are different nodes. -/
theorem compareOrder_precedes_ne (m : QDomNodeModel) (ni1 ni2 ni3 : QXmlNodeModelIndex)
    (h12 : m.compareOrder ni1 ni2 = some DocumentOrder.Precedes)
    (h23 : m.compareOrder ni2 ni3 = some DocumentOrder.Precedes) :
    m.toDomNode ni1 ≠ m.toDomNode ni3 := by
  intro heq
  have h21 : m.compareOrder ni2 ni1 = some DocumentOrder.Precedes := by
    rw [compareOrder_congr m ni2 ni1 ni2 ni3 rfl heq]
    exact h23
  rw [compareOrder_flip m ni1 ni2, h12] at h21
  cases h21

/-- Read-only mode: the answer is `Precedes` exactly for different nodes whose recorded
positions are in lexicographic order. -/
theorem compareOrder_read_only_precedes_iff (m : QDomNodeModel) (hro : m.m_ReadOnly = true)
    (ni1 ni2 : QXmlNodeModelIndex) :
    m.compareOrder ni1 ni2 = some DocumentOrder.Precedes ↔
      m.toDomNode ni1 ≠ m.toDomNode ni2 ∧
        PositionBefore m.dom (m.toDomNode ni1) (m.toDomNode ni2) := by
  unfold compareOrder PositionBefore
  by_cases heq : m.toDomNode ni1 = m.toDomNode ni2
  · simp [heq]
  · simp only [heq, hro, if_true, if_false, ne_eq, not_false_eq_true, true_and]
    by_cases h1 : (m.toDomNode ni1).lineNumber m.dom < (m.toDomNode ni2).lineNumber m.dom
    · simp [h1]
    · by_cases h2 : (m.toDomNode ni1).lineNumber m.dom > (m.toDomNode ni2).lineNumber m.dom
      · have h3 : ¬ (m.toDomNode ni1).lineNumber m.dom = (m.toDomNode ni2).lineNumber m.dom := by
          omega
        simp [h1, h2, h3]
      · have h3 : (m.toDomNode ni1).lineNumber m.dom = (m.toDomNode ni2).lineNumber m.dom := by
          omega
        by_cases h4 : (m.toDomNode ni1).columnNumber m.dom <
            (m.toDomNode ni2).columnNumber m.dom
        · simp [h1, h2, h3, h4]
        · by_cases h5 : (m.toDomNode ni1).columnNumber m.dom >
              (m.toDomNode ni2).columnNumber m.dom
          · simp [h1, h2, h3, h4, h5]
          · simp [h1, h2, h3, h4, h5]

theorem PositionBefore.trans {h : DomStore} {a b c : QDomNode} (h1 : PositionBefore h a b)
    (h2 : PositionBefore h b c) : PositionBefore h a c := by
  unfold PositionBefore at h1 h2 ⊢
  omega

/-- General path: the answer is `Precedes` exactly when the nodes differ, their paths start
at the same root and the loop over the paths answers `Precedes`. -/
theorem compareOrder_general_precedes_iff (m : QDomNodeModel) (hro : m.m_ReadOnly = false)
    (ni1 ni2 : QXmlNodeModelIndex) :
    m.compareOrder ni1 ni2 = some DocumentOrder.Precedes ↔
      m.toDomNode ni1 ≠ m.toDomNode ni2 ∧
        ∃ r, (m.path (m.toDomNode ni1))[0]? = some r ∧ (m.path (m.toDomNode ni2))[0]? = some r ∧
          compareOrderLoop m.dom (m.path (m.toDomNode ni1)) (m.path (m.toDomNode ni2))
            (min (m.path (m.toDomNode ni1)).length (m.path (m.toDomNode ni2)).length)
            (min (m.path (m.toDomNode ni1)).length (m.path (m.toDomNode ni2)).length - 1) 1 =
              some DocumentOrder.Precedes := by
  have hmin : (if (m.path (m.toDomNode ni1)).length < (m.path (m.toDomNode ni2)).length
      then (m.path (m.toDomNode ni1)).length else (m.path (m.toDomNode ni2)).length) =
        min (m.path (m.toDomNode ni1)).length (m.path (m.toDomNode ni2)).length := by
    split <;> omega
  unfold compareOrder
  by_cases heq : m.toDomNode ni1 = m.toDomNode ni2
  · simp [heq]
  · simp only [heq, hro, if_false, Bool.false_eq_true, ne_eq, not_false_eq_true, true_and, hmin]
    cases h1 : (m.path (m.toDomNode ni1))[0]? with
    | none => simp
    | some r1 =>
      cases h2 : (m.path (m.toDomNode ni2))[0]? with
      | none => simp
      | some r2 =>
        simp only
        by_cases hr : r1 = r2
        · subst hr
          simp
        · simp only [hr, not_false_eq_true, if_true, Option.some.injEq]
          constructor
          · intro hc
            cases hc
          · rintro ⟨r, hr1, hr2, _⟩
            exact absurd (hr1.trans hr2.symm) hr

/-- C19: in either mode, when `compareOrder(a, b)` and `compareOrder(b, c)` are both
`Precedes`, `compareOrder(a, c)` is `Precedes`.  Nothing is assumed about the three nodes; the
nodes of a well-formed tree that are not null are a special case. -/
theorem compareOrder_precedes_trans (m : QDomNodeModel) (ni1 ni2 ni3 : QXmlNodeModelIndex)
    (h12 : m.compareOrder ni1 ni2 = some DocumentOrder.Precedes)
    (h23 : m.compareOrder ni2 ni3 = some DocumentOrder.Precedes) :
    m.compareOrder ni1 ni3 = some DocumentOrder.Precedes := by
  have hne := compareOrder_precedes_ne m ni1 ni2 ni3 h12 h23
  by_cases hro : m.m_ReadOnly = true
  · rw [compareOrder_read_only_precedes_iff m hro] at h12 h23 ⊢
    exact ⟨hne, h12.2.trans h23.2⟩
  · have hro2 : m.m_ReadOnly = false := by simpa using hro
    rw [compareOrder_general_precedes_iff m hro2] at h12 h23 ⊢
    obtain ⟨_, r, ha0, hb0, hl12⟩ := h12
    obtain ⟨_, r2, hb1, hc0, hl23⟩ := h23
    have hr : r2 = r := by
      rw [hb0] at hb1
      exact (Option.some.inj hb1).symm
    subst hr
    refine ⟨hne, r2, ha0, hc0, ?_⟩
    have hlen1 : 1 ≤ (m.path (m.toDomNode ni1)).length := by
      by_contra hc
      rw [List.getElem?_eq_none (by omega)] at ha0
      cases ha0
    have hlen2 : 1 ≤ (m.path (m.toDomNode ni2)).length := by
      by_contra hc
      rw [List.getElem?_eq_none (by omega)] at hb0
      cases hb0
    have hlen3 : 1 ≤ (m.path (m.toDomNode ni3)).length := by
      by_contra hc
      rw [List.getElem?_eq_none (by omega)] at hc0
      cases hc0
    generalize m.path (m.toDomNode ni1) = pa at *
    generalize m.path (m.toDomNode ni2) = pb at *
    generalize m.path (m.toDomNode ni3) = pc at *
    have same : ∀ (p q : List QDomNode) (F : Nat), min p.length q.length - 1 ≤ F →
        compareOrderLoop m.dom p q (min p.length q.length) F 1 =
        compareOrderLoop m.dom p q (min p.length q.length) (min p.length q.length - 1) 1 := by
      intro p q F hF
      have := compareOrderLoop_fuel m.dom p q (min p.length q.length)
        (F - (min p.length q.length - 1)) (min p.length q.length - 1) 1 (by omega)
      rw [Nat.add_sub_cancel' hF] at this
      exact this
    rw [← same pa pb (pa.length + pb.length + pc.length) (by omega)] at hl12
    rw [← same pb pc (pa.length + pb.length + pc.length) (by omega)] at hl23
    rw [← same pa pc (pa.length + pb.length + pc.length) (by omega)]
    exact compareOrderLoop_trans m.dom pa pb pc (min pa.length pb.length)
      (min pb.length pc.length) (min pa.length pc.length)
      (by omega) (by omega) (by omega) (fun i h1 h2 => by omega) _ 1 (Nat.le_refl _)
      (by simp [ha0, hb0]) (by simp [hb0, hc0]) hl12 hl23

/-- C19 on `<a>x<b>y</b>z</a>` (read-only mode off) and on a document with recorded positions
(read-only mode on): `x` precedes `y`, `y` precedes `z`, hence `x` precedes `z`; `a` precedes
`b`, `b` precedes `c`, hence `a` precedes `c`. -/
theorem compareOrder_precedes_trans_example :
    textDoc.compareOrder (textDoc.fromDomNode (nodeAt 0 [0, 0]))
        (textDoc.fromDomNode (nodeAt 0 [0, 2])) = some DocumentOrder.Precedes ∧
    positionedDoc.compareOrder (positionedDoc.fromDomNode (nodeAt 0 [0]))
        (positionedDoc.fromDomNode (nodeAt 0 [0, 1])) = some DocumentOrder.Precedes :=
  ⟨compareOrder_precedes_trans textDoc (textDoc.fromDomNode (nodeAt 0 [0, 0]))
      (textDoc.fromDomNode (nodeAt 0 [0, 1, 0])) (textDoc.fromDomNode (nodeAt 0 [0, 2]))
      (by decide) (by decide),
    compareOrder_precedes_trans positionedDoc (positionedDoc.fromDomNode (nodeAt 0 [0]))
      (positionedDoc.fromDomNode (nodeAt 0 [0, 0])) (positionedDoc.fromDomNode (nodeAt 0 [0, 1]))
      (by decide) (by decide)⟩

/-! ## Namespace bindings against the reference definition -/

theorem referencePrefix_eq_declaredPrefix (a : QString) :
    referencePrefix a = declaredPrefix a := by
  unfold referencePrefix declaredPrefix
  by_cases h1 : a = xmlnsLit
  · rw [if_pos h1, if_pos h1]
  · rw [if_neg h1, if_neg h1]
    by_cases h2 : xmlnsColonLit.isPrefixOf a = true
    · have h3 : a.take 6 = xmlnsColonLit := by
        obtain ⟨r, rfl⟩ := List.isPrefixOf_iff_prefix.mp h2
        rfl
      rw [if_pos h2, if_pos h3]
    · have h3 : ¬ a.take 6 = xmlnsColonLit := by
        intro hc
        apply h2
        rw [List.isPrefixOf_iff_prefix]
        exact ⟨a.drop 6, by rw [← hc, List.take_append_drop]⟩
      rw [if_neg h2, if_neg h3]

theorem bindingStep_eq_of_bound (h : DomStore) (st : List QXmlName × Bool) (a : QDomNode)
    (p : QString) (hp : declaredPrefix (a.nodeName h) = some p)
    (hb : bindingsFor p st.1 ≠ []) : bindingStep h st a = st := by
  unfold bindingStep
  rw [hp]
  simp only
  rw [if_neg]
  rw [findPrefix_ge_iff]
  exact hb

theorem bindingsFor_append (P : QString) (l1 l2 : List QXmlName) :
    bindingsFor P (l1 ++ l2) = bindingsFor P l1 ++ bindingsFor P l2 := by
  simp [bindingsFor, List.filter_append]

/-- The attribute loops keep, of the declarations they meet, the first one of each prefix
that `result` does not hold yet, in the order in which they meet them. -/
theorem foldl_bindingStep_eq_keepFirst (h : DomStore) (l : List QDomNode) :
    ∀ st : List QXmlName × Bool,
      (l.foldl (bindingStep h) st).1 =
        st.1 ++ (keepFirst (l.filterMap (fun a =>
          (declaredPrefix (a.nodeName h)).map
            (fun P => (⟨xmlnsLit, a.nodeValue h, P⟩ : QXmlName))))).filter
          (fun c => decide (bindingsFor c.pfx st.1 = [])) := by
  induction l with
  | nil =>
    intro st
    simp [keepFirst]
  | cons a l ih =>
    intro st
    rw [List.foldl_cons, ih]
    cases hp : declaredPrefix (a.nodeName h) with
    | none =>
      have hstep : bindingStep h st a = st := by
        unfold bindingStep
        rw [hp]
      rw [hstep, List.filterMap_cons_none (by rw [hp]; rfl)]
    | some p =>
      rw [List.filterMap_cons_some (by rw [hp]; rfl), keepFirst, List.filter_cons]
      by_cases hb : bindingsFor p st.1 = []
      · rw [bindingStep_of_fresh h st a p ((declaredPrefix_eq_some_iff _ _).mp hp) hb]
        simp only [hb, decide_True, if_true, List.append_assoc, List.singleton_append,
          List.filter_filter]
        congr 2
        apply List.filter_congr
        intro c _
        rw [bindingsFor_append]
        by_cases hc : c.pfx = p
        · simp [hc, bindingsFor]
        · have hc2 : ¬ p = c.pfx := fun e => hc e.symm
          simp [hc, hc2, bindingsFor]
      · rw [bindingStep_eq_of_bound h st a p hp hb]
        simp only [hb, decide_False, if_false, List.filter_filter, Bool.false_eq_true]
        congr 1
        apply List.filter_congr
        intro c _
        by_cases hc : c.pfx = p
        · simp [hc, hb]
        · simp [hc]

theorem filterMap_flatMap_attributes (h : DomStore) (f : QDomNode → Option QXmlName)
    (l : List QDomNode) :
    (l.flatMap (QDomNode.attributes h)).filterMap f =
      l.flatMap (fun x => (x.attributes h).filterMap f) := by
  induction l with
  | nil => rfl
  | cons x l ih => rw [List.flatMap_cons, List.flatMap_cons, List.filterMap_append, ih]

theorem any_pfx_iff (P : QString) (l : List QXmlName) :
    l.any (fun b => decide (b.pfx = P)) = true ↔ bindingsFor P l ≠ [] := by
  induction l with
  | nil => simp [bindingsFor]
  | cons b l ih =>
    by_cases hb : b.pfx = P
    · simp [bindingsFor, hb]
    · simp only [List.any_cons, hb, decide_False, Bool.false_or, ih]
      simp [bindingsFor, hb]

/-- The scope computed by `namespaceBindings` is the scope of the reference definition. -/
theorem namespaceBindings_refines (m : QDomNodeModel) (ni : QXmlNodeModelIndex) :
    m.namespaceBindings ni = referenceBindings m.dom (m.toDomNode ni) := by
  have hkeep := foldl_bindingStep_eq_keepFirst m.dom
    ((m.toDomNode ni).ancestorsOrSelf.flatMap (QDomNode.attributes m.dom)) ([], false)
  rw [filterMap_flatMap_attributes] at hkeep
  have hall : ∀ l : List QXmlName,
      l.filter (fun c => decide (bindingsFor c.pfx ([] : List QXmlName) = [])) = l := by
    intro l
    apply List.filter_eq_self.mpr
    intro c _
    simp [bindingsFor]
  rw [List.nil_append, hall] at hkeep
  have hdecl : (m.toDomNode ni).ancestorsOrSelf.flatMap (fun x =>
      (x.attributes m.dom).filterMap (fun a =>
        (declaredPrefix (a.nodeName m.dom)).map
          (fun P => (⟨xmlnsLit, a.nodeValue m.dom, P⟩ : QXmlName)))) =
      referenceDeclarations m.dom (m.toDomNode ni) := by
    unfold referenceDeclarations
    simp only [referencePrefix_eq_declaredPrefix]
  rw [hdecl] at hkeep
  have hflag := foldl_bindingStep_flag m.dom
    ((m.toDomNode ni).ancestorsOrSelf.flatMap (QDomNode.attributes m.dom)) ([], false)
    (by simp [bindingsFor])
  rw [hkeep, ← any_pfx_iff] at hflag
  rw [namespaceBindings_eq, hkeep]
  unfold referenceBindings
  by_cases hx : (keepFirst (referenceDeclarations m.dom (m.toDomNode ni))).any
      (fun b => decide (b.pfx = xmlLit)) = true
  · rw [if_pos hx, hflag.mpr hx]
    rfl
  · have hoff : (((m.toDomNode ni).ancestorsOrSelf.flatMap (QDomNode.attributes m.dom)).foldl
        (bindingStep m.dom) ([], false)).2 = false := by
      rw [← Bool.not_eq_true, hflag]
      exact hx
    rw [if_neg hx, hoff]
    rfl

/-- C16: the scope computed by `namespaceBindings` equals the reference definition: the
declarations (attributes named `xmlns` or `xmlns:P`, in attribute order) of the node, then of
its parent, and so on up to the root; of each prefix only the first occurrence; and the fixed
binding of `xml` at the end if and only if no kept binding has the prefix `xml`.  Attributes
with other names contribute nothing. -/
theorem namespaceBindings_eq_reference (m : QDomNodeModel) (ni : QXmlNodeModelIndex) :
    m.namespaceBindings ni = referenceBindings m.dom (m.toDomNode ni) :=
  namespaceBindings_refines m ni

/-- C16 on `<a xmlns="D" xmlns:p="U1" c="v"><b xmlns:p="U2" xmlns:q="W" xmlns="E"/></a>`: the
scope at `b` is `p -> U2`, `q -> W`, `"" -> E`, `xml -> http://www.w3.org/XML/1998/namespace`,
in this order; the declarations of `a` are shadowed and `c` contributes nothing. -/
theorem namespaceBindings_eq_reference_example :
    scopeDoc.namespaceBindings (scopeDoc.fromDomNode (nodeAt 0 [0, 0])) =
      [⟨xmlnsLit, ['U', '2'], ['p']⟩, ⟨xmlnsLit, ['W'], ['q']⟩, ⟨xmlnsLit, ['E'], []⟩,
        xmlBinding] :=
  (namespaceBindings_eq_reference scopeDoc (scopeDoc.fromDomNode (nodeAt 0 [0, 0]))).trans
    (by decide)

/-! ## No prefix twice -/

/-- The kept declarations carry pairwise different prefixes. -/
theorem keepFirst_nodup (l : List QXmlName) : ((keepFirst l).map QXmlName.pfx).Nodup := by
  induction l with
  | nil => simp [keepFirst]
  | cons b l ih =>
    rw [keepFirst, List.map_cons, List.nodup_cons]
    constructor
    · intro hmem
      obtain ⟨c, hc, hcp⟩ := List.mem_map.mp hmem
      have := (List.mem_filter.mp hc).2
      simp only [ne_eq, decide_not, Bool.not_eq_true', decide_eq_false_iff_not] at this
      exact this hcp
    · exact ih.sublist ((List.filter_sublist _).map QXmlName.pfx)

theorem bindingsFor_length_le_one (P : QString) (l : List QXmlName)
    (hl : (l.map QXmlName.pfx).Nodup) : (bindingsFor P l).length ≤ 1 := by
  induction l with
  | nil => simp [bindingsFor]
  | cons b l ih =>
    rw [List.map_cons, List.nodup_cons] at hl
    by_cases hb : b.pfx = P
    · have hnone : bindingsFor P l = [] := by
        rw [bindingsFor, List.filter_eq_nil_iff]
        intro c hc hcp
        apply hl.1
        rw [hb]
        exact List.mem_map.mpr ⟨c, hc, by simpa using hcp⟩
      have hsplit : bindingsFor P (b :: l) = b :: bindingsFor P l := by
        simp [bindingsFor, hb]
      rw [hsplit, hnone]
      simp
    · have hsplit : bindingsFor P (b :: l) = bindingsFor P l := by
        simp [bindingsFor, hb]
      rw [hsplit]
      exact ih hl.2

/-- C20: for every index, the index of the null node included, the scope computed by
`namespaceBindings` holds no two bindings with the same prefix, and it holds exactly one
binding with the prefix `xml`. -/
theorem namespaceBindings_nodup (m : QDomNodeModel) (ni : QXmlNodeModelIndex) :
    ((m.namespaceBindings ni).map QXmlName.pfx).Nodup ∧
    (bindingsFor xmlLit (m.namespaceBindings ni)).length = 1 ∧
    m.namespaceBindings (m.fromDomNode QDomNode.null) = [xmlBinding] := by
  have hnodup := keepFirst_nodup (referenceDeclarations m.dom (m.toDomNode ni))
  rw [namespaceBindings_refines]
  unfold referenceBindings
  refine ⟨?_, ?_, rfl⟩
  · by_cases hx : (keepFirst (referenceDeclarations m.dom (m.toDomNode ni))).any
        (fun b => decide (b.pfx = xmlLit)) = true
    · rw [if_pos hx]
      exact hnodup
    · rw [if_neg hx, List.map_append, List.nodup_append]
      refine ⟨hnodup, by simp, ?_⟩
      intro p hp1 hp2
      simp only [List.map_cons, List.map_nil, List.mem_singleton] at hp2
      subst hp2
      obtain ⟨c, hc, hcp⟩ := List.mem_map.mp hp1
      apply hx
      rw [List.any_eq_true]
      exact ⟨c, hc, by simpa [xmlBinding] using hcp⟩
  · by_cases hx : (keepFirst (referenceDeclarations m.dom (m.toDomNode ni))).any
        (fun b => decide (b.pfx = xmlLit)) = true
    · rw [if_pos hx]
      have hle := bindingsFor_length_le_one xmlLit _ hnodup
      have hne := (any_pfx_iff xmlLit _).mp hx
      have hpos : 0 < (bindingsFor xmlLit
          (keepFirst (referenceDeclarations m.dom (m.toDomNode ni)))).length :=
        List.length_pos.mpr hne
      omega
    · rw [if_neg hx, bindingsFor_append]
      have hnone : bindingsFor xmlLit
          (keepFirst (referenceDeclarations m.dom (m.toDomNode ni))) = [] := by
        by_contra hc
        exact hx ((any_pfx_iff xmlLit _).mpr hc)
      rw [hnone]
      rfl

/-- C20 on `<a xmlns:xml="foo"/>` and on the null node: the scope at `a` holds one binding
with the prefix `xml` (the declared one), and the scope of the null node is the fixed binding
of `xml` alone. -/
theorem namespaceBindings_nodup_example :
    (bindingsFor xmlLit (xmlRedeclaredDoc.namespaceBindings
      (xmlRedeclaredDoc.fromDomNode (nodeAt 0 [0])))).length = 1 ∧
    xmlRedeclaredDoc.namespaceBindings (xmlRedeclaredDoc.fromDomNode QDomNode.null) =
      [xmlBinding] :=
  ⟨(namespaceBindings_nodup xmlRedeclaredDoc (xmlRedeclaredDoc.fromDomNode (nodeAt 0 [0]))).2.1,
    by decide⟩
